import Mathlib

set_option maxHeartbeats 1000000
set_option maxRecDepth 100000

/-!
Verification of the 1-Wire bus driver (`src/asynch.rs`).

The driver is embedded shallowly: the bit-level primitives (`reset`,
`read_bit`, `write_bit`) are abstracted as a bus fixture interface, and the
byte operations, `send_command` and the ROM search `device_search` are
translated from the source over that interface.  Timing (micro-second
delays) and the raw pin capability are below this abstraction; every
operation additionally records the trace of primitive bus actions it
performs, so that statements about "no reset is issued" or "no bit slot is
executed" are expressible.

Machine integers are modelled as naturals: `u64` values are naturals below
`2 ^ 64`, masking (`&= !mask`) is spelled with an explicit 64-bit
complement, and `1 << k` is the natural `2 ^ k`.  The source only shifts by
indices below 64 (the loop bounds, and the invariant proved as claim C10,
guarantee this for every state the driver produces), where the natural and
`u64` semantics coincide.
-/

namespace OneWire

/-- Error type of the bus driver (`OneWireError` in the source); only the
variants reachable inside the embedded operations are modelled (pin failures
and the reset timeout live below the bus abstraction). -/
inductive OneWireError where
  | unexpectedResponse
  | crcMismatch
deriving DecidableEq

/-- Observable primitive bus operations, recorded as the trace of a call. -/
inductive Action where
  | reset
  | readBit
  | writeBit (b : Bool)
deriving DecidableEq

/-- Resumable cursor of the ROM search (`SearchState` in the crate):
`address : u64`, `discrepancies : u64`, `last_discrepancy_index : u8`,
modelled as natural numbers. -/
structure SearchState where
  address : Nat
  discrepancies : Nat
  last_discrepancy_index : Nat
deriving DecidableEq

/-- A one-wire bus fixture: `reset` returns the sensed presence pulse,
`readBit` the sensed line level of one read slot, `writeBit` consumes one
written bit.  The driver is embedded generically over this interface. -/
structure Bus (σ : Type) where
  reset : σ → Bool × σ
  readBit : σ → Bool × σ
  writeBit : Bool → σ → σ

/-- Modelled from the spec: the command byte for a normal ROM search
(crate module `commands` is outside the reviewed file); the value is the
1-Wire SEARCH code named in the spec. -/
def SEARCH_NORMAL : Nat := 0xF0

/-- Modelled from the spec: the command byte for an alarm-only ROM search. -/
def SEARCH_ALARM : Nat := 0xEC

/-- Modelled from the spec: the MATCH-ROM command byte. -/
def MATCH_ROM : Nat := 0x55

/-- Modelled from the spec: the SKIP-ROM command byte. -/
def SKIP_ROM : Nat := 0xCC

/-- All 64 bits set; `u64` bitwise complement is xor with this mask. -/
def MASK64 : Nat := 2 ^ 64 - 1

/-- Bitwise `u64` complement (`!m` on `u64` in the source). -/
def not64 (m : Nat) : Nat := MASK64 ^^^ m

/-- The loop of `write_byte` in the source: each iteration writes
`value & 0x01 == 0x01` and then shifts `value` right, so the eight bits go
out least-significant first. -/
def write_byte_loop {σ : Type} (B : Bus σ) : Nat → Nat → σ → σ × List Action
  | 0, _, s => (s, [])
  | n+1, value, s =>
    let b := (value &&& 1) == 1
    let s1 := B.writeBit b s
    let r := write_byte_loop B n (value >>> 1) s1
    (r.1, Action.writeBit b :: r.2)

/-- `write_byte` from the source: eight write slots, LSB first. -/
def write_byte {σ : Type} (B : Bus σ) (value : Nat) (s : σ) : σ × List Action :=
  write_byte_loop B 8 value s

/-- The loop of `read_byte` in the source: each iteration shifts the
accumulator right and ORs `0x80` in when the read slot sensed high, so the
eight received bits are assembled least-significant first. -/
def read_byte_loop {σ : Type} (B : Bus σ) : Nat → Nat → σ → Nat × σ × List Action
  | 0, output, s => (output, s, [])
  | n+1, output, s =>
    let output1 := output >>> 1
    let br := B.readBit s
    let output2 := if br.1 then output1 ||| 0x80 else output1
    let r := read_byte_loop B n output2 br.2
    (r.1, r.2.1, Action.readBit :: r.2.2)

/-- `read_byte` from the source. -/
def read_byte {σ : Type} (B : Bus σ) (s : σ) : Nat × σ × List Action :=
  read_byte_loop B 8 0 s

/-- `u64::to_le_bytes`: the eight bytes of a 64-bit value, least significant
byte first, as used for the checksum of the assembled ROM code. -/
def u64_to_le_bytes (x : Nat) : List Nat :=
  [x &&& 0xFF, (x >>> 8) &&& 0xFF, (x >>> 16) &&& 0xFF, (x >>> 24) &&& 0xFF,
   (x >>> 32) &&& 0xFF, (x >>> 40) &&& 0xFF, (x >>> 48) &&& 0xFF, (x >>> 56) &&& 0xFF]

/-- Modelled from the spec: the checksum validator (`crc::check_crc8`) is an
external collaborator specified only at its interface, so it is an abstract
predicate `crcOk` over the eight ROM bytes; a failed check is the
checksum-mismatch error. -/
def check_crc8 (crcOk : List Nat → Bool) (bytes : List Nat) : Except OneWireError Unit :=
  if crcOk bytes then Except.ok () else Except.error OneWireError.crcMismatch

/-- The resume loop of `device_search`
(`for bit_index in 0..search_state.last_discrepancy_index` in the source):
each position performs the two read slots (values discarded), records the
position as candidate last-discrepancy index when the previous mask has that
bit set, and writes back the previously chosen address bit. -/
def followLoop {σ : Type} (B : Bus σ) (prev : SearchState) :
    Nat → Nat → Nat → σ → Nat × σ × List Action
  | 0, _, ldi, s => (ldi, s, [])
  | fuel+1, bit_index, ldi, s =>
    let r1 := B.readBit s
    let r2 := B.readBit r1.2
    let ldi1 := if ((prev.discrepancies &&& (1 <<< bit_index)) != 0) then bit_index else ldi
    let previous_chosen_bit := ((prev.address &&& (1 <<< bit_index)) != 0)
    let s3 := B.writeBit previous_chosen_bit r2.2
    let r := followLoop B prev fuel (bit_index+1) ldi1 s3
    (r.1, r.2.1, Action.readBit :: Action.readBit :: Action.writeBit previous_chosen_bit :: r.2.2)

/-- The main walk of `device_search`
(`for bit_index in continue_start_bit..64` in the source) with `fuel`
remaining positions: two read slots sense the negated line levels
(`false_bit`/`true_bit`), the bit is chosen by the four-outcome table,
stored into the address, and written back onto the bus. -/
def mainLoop {σ : Type} (B : Bus σ) : Nat → Nat → Nat → Nat → Nat → σ →
    Except OneWireError (Nat × Nat × Nat) × σ × List Action
  | 0, _, address, discrepancies, ldi, s => (Except.ok (address, discrepancies, ldi), s, [])
  | fuel+1, bit_index, address, discrepancies, ldi, s =>
    let r1 := B.readBit s
    let r2 := B.readBit r1.2
    let false_bit := !r1.1
    let true_bit := !r2.1
    match false_bit, true_bit with
    | false, false =>
      (Except.error OneWireError.unexpectedResponse, r2.2, [Action.readBit, Action.readBit])
    | false, true =>
      let s3 := B.writeBit true r2.2
      let r := mainLoop B fuel (bit_index+1) (address ||| (1 <<< bit_index)) discrepancies ldi s3
      (r.1, r.2.1, Action.readBit :: Action.readBit :: Action.writeBit true :: r.2.2)
    | true, false =>
      let s3 := B.writeBit false r2.2
      let r := mainLoop B fuel (bit_index+1) (address &&& not64 (1 <<< bit_index)) discrepancies ldi s3
      (r.1, r.2.1, Action.readBit :: Action.readBit :: Action.writeBit false :: r.2.2)
    | true, true =>
      let s3 := B.writeBit false r2.2
      let r := mainLoop B fuel (bit_index+1) (address &&& not64 (1 <<< bit_index))
        (discrepancies ||| (1 <<< bit_index)) bit_index s3
      (r.1, r.2.1, Action.readBit :: Action.readBit :: Action.writeBit false :: r.2.2)

/-- `device_search` up to (and excluding) the final checksum validation:
the fast exhaustion check, reset/presence check, search command byte, the
optional resume walk and the main walk, yielding the assembled
`(address, discrepancies, last_discrepancy_index)` triple, the final bus
state and the trace of primitive actions. -/
def device_search_core {σ : Type} (B : Bus σ) (search_state : Option SearchState)
    (only_alarming : Bool) (s : σ) :
    Except OneWireError (Option (Nat × Nat × Nat)) × σ × List Action :=
  if (match search_state with
      | some st => st.discrepancies == 0
      | none => false) then
    (Except.ok none, s, [])
  else
    let rp := B.reset s
    if !rp.1 then (Except.ok none, rp.2, [Action.reset])
    else
      let cmd := if only_alarming then SEARCH_ALARM else SEARCH_NORMAL
      let wb := write_byte B cmd rp.2
      match search_state with
      | some st =>
        let fl := followLoop B st st.last_discrepancy_index 0 0 wb.1
        let c1 := B.readBit fl.2.1
        let c2 := B.readBit c1.2
        let false_bit := !c1.1
        let true_bit := !c2.1
        if !(false_bit && true_bit) then
          (Except.error OneWireError.unexpectedResponse, c2.2,
            Action.reset :: wb.2 ++ fl.2.2 ++ [Action.readBit, Action.readBit])
        else
          let address := st.address ||| (1 <<< st.last_discrepancy_index)
          let s6 := B.writeBit true c2.2
          let discrepancies := st.discrepancies &&& not64 (1 <<< st.last_discrepancy_index)
          let continue_start_bit := st.last_discrepancy_index + 1
          let ml := mainLoop B (64 - continue_start_bit) continue_start_bit address discrepancies fl.1 s6
          (ml.1.map (fun t => some t), ml.2.1,
            Action.reset :: wb.2 ++ fl.2.2 ++
              (Action.readBit :: Action.readBit :: Action.writeBit true :: ml.2.2))
      | none =>
        let ml := mainLoop B 64 0 0 0 0 wb.1
        (ml.1.map (fun t => some t), ml.2.1, Action.reset :: wb.2 ++ ml.2.2)

/-- `device_search` from the source, over an abstract bus fixture and
checksum validator: runs the search walk and validates the assembled
little-endian ROM code, returning the address together with the new
`SearchState` on success. -/
def device_search {σ : Type} (B : Bus σ) (crcOk : List Nat → Bool)
    (search_state : Option SearchState) (only_alarming : Bool) (s : σ) :
    Except OneWireError (Option (Nat × SearchState)) × σ × List Action :=
  match device_search_core B search_state only_alarming s with
  | (Except.error e, s', tr) => (Except.error e, s', tr)
  | (Except.ok none, s', tr) => (Except.ok none, s', tr)
  | (Except.ok (some (address, discrepancies, last_discrepancy_index)), s', tr) =>
    match check_crc8 crcOk (u64_to_le_bytes address) with
    | Except.error e => (Except.error e, s', tr)
    | Except.ok _ =>
      (Except.ok (some (address, ⟨address, discrepancies, last_discrepancy_index⟩)), s', tr)

/-- A bus whose primitives may fail with a pin error `ε` (the `?` operator
in the source propagates such failures); used to embed `send_command`, whose
claimed behaviour is about when it fails.  Only the primitives
`send_command` touches are needed. -/
structure BusIO (σ ε : Type) where
  reset : σ → Except ε (Bool × σ)
  writeBit : Bool → σ → Except ε σ

/-- `write_byte` over a fallible bus. -/
def write_byte_io_loop {σ ε : Type} (B : BusIO σ ε) : Nat → Nat → σ → Except ε (σ × List Action)
  | 0, _, s => Except.ok (s, [])
  | n+1, value, s =>
    let b := (value &&& 1) == 1
    match B.writeBit b s with
    | Except.error e => Except.error e
    | Except.ok s1 =>
      match write_byte_io_loop B n (value >>> 1) s1 with
      | Except.error e => Except.error e
      | Except.ok r => Except.ok (r.1, Action.writeBit b :: r.2)

/-- `write_byte` over a fallible bus: eight write slots, LSB first. -/
def write_byte_io {σ ε : Type} (B : BusIO σ ε) (value : Nat) (s : σ) :
    Except ε (σ × List Action) :=
  write_byte_io_loop B 8 value s

/-- `write_bytes` over a fallible bus: sequential byte writes, aborting on
the first failure. -/
def write_bytes_io {σ ε : Type} (B : BusIO σ ε) : List Nat → σ → Except ε (σ × List Action)
  | [], s => Except.ok (s, [])
  | b :: rest, s =>
    match write_byte_io B b s with
    | Except.error e => Except.error e
    | Except.ok r =>
      match write_bytes_io B rest r.1 with
      | Except.error e => Except.error e
      | Except.ok r2 => Except.ok (r2.1, r.2 ++ r2.2)

/-- `match_address` from the source: the MATCH-ROM byte followed by the
eight little-endian address bytes. -/
def match_address_io {σ ε : Type} (B : BusIO σ ε) (address : Nat) (s : σ) :
    Except ε (σ × List Action) :=
  match write_byte_io B MATCH_ROM s with
  | Except.error e => Except.error e
  | Except.ok r =>
    match write_bytes_io B (u64_to_le_bytes address) r.1 with
    | Except.error e => Except.error e
    | Except.ok r2 => Except.ok (r2.1, r.2 ++ r2.2)

/-- `skip_address` from the source: the SKIP-ROM byte. -/
def skip_address_io {σ ε : Type} (B : BusIO σ ε) (s : σ) : Except ε (σ × List Action) :=
  write_byte_io B SKIP_ROM s

/-- The part of `send_command` after its reset: match-or-skip depending on
whether an address was supplied, then the command byte. -/
def address_and_command_io {σ ε : Type} (B : BusIO σ ε) (command : Nat)
    (address : Option Nat) (s : σ) : Except ε (σ × List Action) :=
  let first := match address with
    | some a => match_address_io B a s
    | none => skip_address_io B s
  match first with
  | Except.error e => Except.error e
  | Except.ok r =>
    match write_byte_io B command r.1 with
    | Except.error e => Except.error e
    | Except.ok r2 => Except.ok (r2.1, r.2 ++ r2.2)

/-- `send_command` from the source: a reset (whose presence result is bound
but, as in the source, never inspected), then match-or-skip, then the
command byte. -/
def send_command_io {σ ε : Type} (B : BusIO σ ε) (command : Nat)
    (address : Option Nat) (s : σ) : Except ε (σ × List Action) :=
  match B.reset s with
  | Except.error e => Except.error e
  | Except.ok rp =>
    match address_and_command_io B command address rp.2 with
    | Except.error e => Except.error e
    | Except.ok r => Except.ok (r.1, Action.reset :: r.2)

/-- A fallible fixture whose primitives all succeed and whose reset senses
no presence pulse. -/
def noPresenceBus : BusIO Unit Unit where
  reset _ := Except.ok (false, ())
  writeBit _ _ := Except.ok ()

/-- Loopback fixture for the byte round trip: written bits are queued and
read back in order, a read from an empty queue sees the idle-high line. -/
def loopbackBus : Bus (List Bool) where
  reset s := (true, s)
  readBit s :=
    match s with
    | [] => (true, [])
    | b :: rest => (b, rest)
  writeBit b s := s ++ [b]

/-- State of the multi-device search fixture: the fixed set of device ROM
codes, the devices still selected in the current pass, how many command bits
are still expected after the reset, the current search bit position and
whether the next read slot is the complement slot. -/
structure BusState where
  devices : List Nat
  live : List Nat
  cmdLeft : Nat
  pos : Nat
  slot2 : Bool
deriving DecidableEq

/-- Modelled from the spec: a fixture bus holding a fixed set of devices
with the wired-AND semantics of the search (spec 4.3): a reset reports
presence iff some device exists and re-selects every device, which then
absorbs the eight command bits; in each search step the first read slot is
low iff some live device has bit 0 at the current position, the second slot
is low iff some has bit 1, and a written bit deselects every live device
whose bit at the position differs. -/
def searchBus : Bus BusState where
  reset s := (!s.devices.isEmpty, ⟨s.devices, s.devices, 8, 0, false⟩)
  readBit s :=
    if s.cmdLeft != 0 then (true, s)
    else if s.slot2 then (s.live.all (fun d => !d.testBit s.pos), { s with slot2 := false })
    else (s.live.all (fun d => d.testBit s.pos), { s with slot2 := true })
  writeBit b s :=
    if s.cmdLeft != 0 then { s with cmdLeft := s.cmdLeft - 1 }
    else { s with live := s.live.filter (fun d => d.testBit s.pos == b),
                  pos := s.pos + 1, slot2 := false }

/-- Repeated `device_search` calls threading each returned `SearchState`
into the next call: `none` when out of fuel, otherwise the collected
(address, state) pairs, ending when a call reports exhaustion. -/
def searchRun (crcOk : List Nat → Bool) : Nat → Option SearchState → BusState →
    Option (Except OneWireError (List (Nat × SearchState)))
  | 0, _, _ => none
  | fuel+1, st, s =>
    match device_search searchBus crcOk st false s with
    | (Except.ok none, _, _) => some (Except.ok [])
    | (Except.error e, _, _) => some (Except.error e)
    | (Except.ok (some (a, st')), s', _) =>
      match searchRun crcOk fuel (some st') s' with
      | none => none
      | some (Except.error e) => some (Except.error e)
      | some (Except.ok rest) => some (Except.ok ((a, st') :: rest))

/-- A fixture with constant responses, used to instantiate generic theorems
on concrete inputs: reset senses `p`, every read slot senses `r`. -/
def constBus (p r : Bool) : Bus Unit where
  reset _ := (p, ())
  readBit _ := (r, ())
  writeBit _ _ := ()

/-- Transmission order on 64-bit ROM codes: lexicographic on the bit stream
as transmitted, least-significant bit first. -/
def transLt (a b : Nat) : Prop :=
  ∃ k, k < 64 ∧ a.testBit k = false ∧ b.testBit k = true ∧
    ∀ j, j < k → a.testBit j = b.testBit j

instance (a b : Nat) : Decidable (transLt a b) :=
  decidable_of_iff
    (∃ k ∈ List.range 64, a.testBit k = false ∧ b.testBit k = true ∧
      ∀ j ∈ List.range k, a.testBit j = b.testBit j)
    (by simp [transLt, List.mem_range])

/-- Position-wise characterisation of the discrepancy mask a pass over
device set `D` leaves behind after finding `a`: bit `k` is set iff `a` has a
0 there while some device agreeing with `a` on all lower bits has a 1. -/
def discChar (D : List Nat) (a d : Nat) : Prop :=
  ∀ k, d.testBit k = true ↔
    (a.testBit k = false ∧ ∃ x ∈ D, x.testBit k = true ∧ ∀ j, j < k → x.testBit j = a.testBit j)

/-- `l` is the index of the highest set bit of `m`, and `0` when `m = 0`. -/
def highBit (m l : Nat) : Prop :=
  (m = 0 ∧ l = 0) ∨ (m.testBit l = true ∧ ∀ k, l < k → m.testBit k = false)

/-- Full invariant of a search state produced over device set `D`. -/
def Inv (D : List Nat) (st : SearchState) : Prop :=
  st.address ∈ D ∧ st.address < 2 ^ 64 ∧
    discChar D st.address st.discrepancies ∧
    highBit st.discrepancies st.last_discrepancy_index

/-- Agreement of two values on the bit positions of `[p, k)`. -/
def agreeOn (p k x y : Nat) : Prop := ∀ i, p ≤ i → i < k → x.testBit i = y.testBit i

/-- Strict transmission order restricted to bit positions at or above `p`. -/
def tltFrom (p x y : Nat) : Prop :=
  ∃ k, p ≤ k ∧ x.testBit k = false ∧ y.testBit k = true ∧ agreeOn p k x y

/-- Claim C10's state property: the address has bit 0 at every mask
position, and `last_discrepancy_index` is the highest set mask bit (0 for an
empty mask). -/
def StateProp (st : SearchState) : Prop :=
  (∀ k, st.discrepancies.testBit k = true → st.address.testBit k = false) ∧
    highBit st.discrepancies st.last_discrepancy_index

/-- The `u64` range constraints the Rust types impose on a search state. -/
def wf64 (st : SearchState) : Prop :=
  st.address < 2 ^ 64 ∧ st.discrepancies < 2 ^ 64

/-! ## Bit-level helper lemmas -/

theorem and_shift_ne_zero (a k : Nat) : ((a &&& (1 <<< k)) != 0) = a.testBit k := by
  rw [Nat.one_shiftLeft]
  cases h : a.testBit k with
  | false =>
    have hz : a &&& 2 ^ k = 0 := by
      apply Nat.eq_of_testBit_eq
      intro i
      rcases eq_or_ne k i with rfl | hne
      · simp [Nat.testBit_and, h]
      · simp [Nat.testBit_and, Nat.testBit_two_pow_of_ne hne]
    simp [hz]
  | true =>
    have ht : (a &&& 2 ^ k).testBit k = true := by
      simp [Nat.testBit_and, h, Nat.testBit_two_pow_self]
    have hne : a &&& 2 ^ k ≠ 0 := by
      intro h0
      rw [h0] at ht
      simp at ht
    simp [hne]

theorem testBit_shift_self (k : Nat) : (1 <<< k).testBit k = true := by
  rw [Nat.one_shiftLeft]; exact Nat.testBit_two_pow_self

theorem testBit_shift_ne (k j : Nat) (h : k ≠ j) : (1 <<< k).testBit j = false := by
  rw [Nat.one_shiftLeft]; exact Nat.testBit_two_pow_of_ne h

theorem testBit_ge_64 {x : Nat} (hx : x < 2 ^ 64) {j : Nat} (hj : 64 ≤ j) :
    x.testBit j = false :=
  Nat.testBit_lt_two_pow (lt_of_lt_of_le hx (Nat.pow_le_pow_right (by decide) hj))

theorem testBit_not64 (m j : Nat) :
    (not64 m).testBit j = (decide (j < 64)).xor (m.testBit j) := by
  have h : MASK64 = 2 ^ 64 - 1 := rfl
  rw [not64, h, Nat.testBit_xor, Nat.testBit_two_pow_sub_one]

theorem testBit_set (a p j : Nat) :
    (a ||| (1 <<< p)).testBit j = (a.testBit j || decide (p = j)) := by
  rcases eq_or_ne p j with rfl | hne
  · simp [Nat.testBit_or, testBit_shift_self]
  · simp [Nat.testBit_or, testBit_shift_ne p j hne, hne]

theorem testBit_clear (a p j : Nat) (hj : j < 64) :
    (a &&& not64 (1 <<< p)).testBit j = (a.testBit j && !decide (p = j)) := by
  rcases eq_or_ne p j with rfl | hne
  · simp [Nat.testBit_and, testBit_not64, testBit_shift_self, hj]
  · simp [Nat.testBit_and, testBit_not64, testBit_shift_ne p j hne, hj, hne]

theorem set_lt (a p : Nat) (ha : a < 2 ^ 64) (hp : p < 64) :
    a ||| (1 <<< p) < 2 ^ 64 := by
  rw [Nat.one_shiftLeft]
  exact Nat.or_lt_two_pow ha (Nat.pow_lt_pow_right (by decide) hp)

theorem clear_lt (a p : Nat) (ha : a < 2 ^ 64) :
    a &&& not64 (1 <<< p) < 2 ^ 64 :=
  lt_of_le_of_lt Nat.and_le_left ha

theorem testBit_high_of_lt {a : Nat} (ha : a < 2 ^ 64) :
    ∀ j, 64 ≤ j → a.testBit j = false :=
  fun _ hj => testBit_ge_64 ha hj

/-! ## Claim C3: fast exhaustion check -/

/-- C3: a `device_search` call given a previous state whose `discrepancies`
field is 0 returns `None` immediately: the bus state is returned untouched
and the recorded trace is empty, so no reset is issued and no bit slot is
executed. -/
theorem c3_exhausted_state_returns_none {σ : Type} (B : Bus σ) (crcOk : List Nat → Bool)
    (st : SearchState) (only_alarming : Bool) (s : σ)
    (h : st.discrepancies = 0) :
    device_search B crcOk (some st) only_alarming s = (Except.ok none, s, []) := by
  simp [device_search, device_search_core, h]

theorem c3_witness :
    (⟨77, 0, 3⟩ : SearchState).discrepancies = 0 ∧
      device_search (constBus true true) (fun _ => true) (some ⟨77, 0, 3⟩) false () =
        (Except.ok none, (), []) :=
  ⟨rfl, c3_exhausted_state_returns_none (constBus true true) (fun _ => true) ⟨77, 0, 3⟩ false () rfl⟩

/-! ## Claim C7: empty bus -/

/-- C7: when the initial reset senses no presence pulse, `device_search`
returns `None` and the recorded trace is exactly the reset: no search
command byte is written and no bit slot is executed.  (The hypothesis on the
optional input state excludes the earlier exhaustion exit, which returns
before any reset.) -/
theorem c7_no_presence_returns_none {σ : Type} (B : Bus σ) (crcOk : List Nat → Bool)
    (search_state : Option SearchState) (only_alarming : Bool) (s : σ)
    (hst : ∀ st, search_state = some st → st.discrepancies ≠ 0)
    (h : (B.reset s).1 = false) :
    device_search B crcOk search_state only_alarming s =
      (Except.ok none, (B.reset s).2, [Action.reset]) := by
  cases hss : search_state with
  | none => simp [device_search, device_search_core, h]
  | some st =>
    have hd := hst st hss
    simp [device_search, device_search_core, h, hd]

theorem c7_witness :
    (∀ st : SearchState, (none : Option SearchState) = some st → st.discrepancies ≠ 0) ∧
      ((constBus false true).reset ()).1 = false ∧
      device_search (constBus false true) (fun _ => true) none false () =
        (Except.ok none, (), [Action.reset]) :=
  ⟨fun _ h => Option.noConfusion h, rfl,
    c7_no_presence_returns_none (constBus false true) (fun _ => true) none false ()
      (fun _ h => Option.noConfusion h) rfl⟩

/-! ## Claim C9: byte round trip, LSB first -/

/-- C9: `write_byte` transmits the eight bits of its argument least
significant bit first, and reading the same bits back with `read_byte` over
the loopback fixture reproduces the byte exactly. -/
theorem c9_byte_round_trip (v : Nat) (h : v < 256) :
    (write_byte loopbackBus v []).2 =
      [Action.writeBit (v.testBit 0), Action.writeBit (v.testBit 1),
       Action.writeBit (v.testBit 2), Action.writeBit (v.testBit 3),
       Action.writeBit (v.testBit 4), Action.writeBit (v.testBit 5),
       Action.writeBit (v.testBit 6), Action.writeBit (v.testBit 7)] ∧
    (read_byte loopbackBus (write_byte loopbackBus v []).1).1 = v := by
  revert h; revert v; decide

theorem c9_witness :
    165 < 256 ∧
      ((write_byte loopbackBus 165 []).2 =
        [Action.writeBit ((165 : Nat).testBit 0), Action.writeBit ((165 : Nat).testBit 1),
         Action.writeBit ((165 : Nat).testBit 2), Action.writeBit ((165 : Nat).testBit 3),
         Action.writeBit ((165 : Nat).testBit 4), Action.writeBit ((165 : Nat).testBit 5),
         Action.writeBit ((165 : Nat).testBit 6), Action.writeBit ((165 : Nat).testBit 7)] ∧
      (read_byte loopbackBus (write_byte loopbackBus 165 []).1).1 = 165) :=
  ⟨by decide, c9_byte_round_trip 165 (by decide)⟩

/-! ## Claim C1: the four outcomes of a main-walk step -/

/-- C1: at each position the main walk processes, the two response slots are
read (`r1` senses the 0-response slot, `r2` the 1-response slot; a low read,
i.e. `false`, means the response is present) and exactly four outcomes
occur: neither response present aborts the walk with `UnexpectedResponse`
and no write-back; only the 1-response present chooses bit 1; only the
0-response present chooses bit 0; both present choose bit 0, set the
discrepancy mask bit and record the position as last discrepancy index; in
every non-failing outcome the chosen bit is stored in the address and
written back onto the bus before the walk continues at the next position. -/
theorem c1_main_walk_outcomes {σ : Type} (B : Bus σ)
    (fuel bit_index address discrepancies ldi : Nat) (s s1 s2 : σ) (r1 r2 : Bool)
    (h1 : B.readBit s = (r1, s1)) (h2 : B.readBit s1 = (r2, s2)) :
    (r1 = true → r2 = true →
      mainLoop B (fuel+1) bit_index address discrepancies ldi s =
        (Except.error OneWireError.unexpectedResponse, s2, [Action.readBit, Action.readBit])) ∧
    (r1 = true → r2 = false →
      mainLoop B (fuel+1) bit_index address discrepancies ldi s =
        (let r := mainLoop B fuel (bit_index+1) (address ||| (1 <<< bit_index))
            discrepancies ldi (B.writeBit true s2)
         (r.1, r.2.1, Action.readBit :: Action.readBit :: Action.writeBit true :: r.2.2))) ∧
    (r1 = false → r2 = true →
      mainLoop B (fuel+1) bit_index address discrepancies ldi s =
        (let r := mainLoop B fuel (bit_index+1) (address &&& not64 (1 <<< bit_index))
            discrepancies ldi (B.writeBit false s2)
         (r.1, r.2.1, Action.readBit :: Action.readBit :: Action.writeBit false :: r.2.2))) ∧
    (r1 = false → r2 = false →
      mainLoop B (fuel+1) bit_index address discrepancies ldi s =
        (let r := mainLoop B fuel (bit_index+1) (address &&& not64 (1 <<< bit_index))
            (discrepancies ||| (1 <<< bit_index)) bit_index (B.writeBit false s2)
         (r.1, r.2.1, Action.readBit :: Action.readBit :: Action.writeBit false :: r.2.2))) := by
  cases r1 <;> cases r2 <;> simp [mainLoop, h1, h2]

theorem c1_witness :
    (constBus true false).readBit () = (false, ()) ∧
      ((false : Bool) = true → (false : Bool) = true →
        mainLoop (constBus true false) 1 0 0 0 0 () =
          (Except.error OneWireError.unexpectedResponse, (), [Action.readBit, Action.readBit])) ∧
      ((false : Bool) = true → (false : Bool) = false →
        mainLoop (constBus true false) 1 0 0 0 0 () =
          (let r := mainLoop (constBus true false) 0 1 (0 ||| (1 <<< 0)) 0 0
              ((constBus true false).writeBit true ())
           (r.1, r.2.1, Action.readBit :: Action.readBit :: Action.writeBit true :: r.2.2))) ∧
      ((false : Bool) = false → (false : Bool) = true →
        mainLoop (constBus true false) 1 0 0 0 0 () =
          (let r := mainLoop (constBus true false) 0 1 (0 &&& not64 (1 <<< 0)) 0 0
              ((constBus true false).writeBit false ())
           (r.1, r.2.1, Action.readBit :: Action.readBit :: Action.writeBit false :: r.2.2))) ∧
      ((false : Bool) = false → (false : Bool) = false →
        mainLoop (constBus true false) 1 0 0 0 0 () =
          (let r := mainLoop (constBus true false) 0 1 (0 &&& not64 (1 <<< 0))
              (0 ||| (1 <<< 0)) 0 ((constBus true false).writeBit false ())
           (r.1, r.2.1, Action.readBit :: Action.readBit :: Action.writeBit false :: r.2.2))) :=
  ⟨rfl, c1_main_walk_outcomes (constBus true false) 0 0 0 0 0 () () () false false rfl rfl⟩

/-! ## The resume loop -/

/-- Behaviour of the resume loop: over the positions
`[bit_index, bit_index + fuel)` it performs two read slots and one
write-back of the previous address bit per position, and the returned
candidate index equals the incoming accumulator when no previous-mask bit
lies in the range, else the highest previous-mask bit in the range. -/
theorem followLoop_spec {σ : Type} (B : Bus σ) (prev : SearchState) :
    ∀ fuel bit_index ldi s,
      ∃ acc s' tr, followLoop B prev fuel bit_index ldi s = (acc, s', tr) ∧
        tr = (List.range' bit_index fuel).flatMap
          (fun k => [Action.readBit, Action.readBit, Action.writeBit (prev.address.testBit k)]) ∧
        ((acc = ldi ∧ ∀ i, bit_index ≤ i → i < bit_index + fuel →
            prev.discrepancies.testBit i = false) ∨
          (bit_index ≤ acc ∧ acc < bit_index + fuel ∧
            prev.discrepancies.testBit acc = true ∧
            ∀ i, acc < i → i < bit_index + fuel → prev.discrepancies.testBit i = false)) := by
  intro fuel
  induction fuel with
  | zero =>
    intro bit_index ldi s
    exact ⟨ldi, s, [], rfl, by simp, Or.inl ⟨rfl, fun i h1 h2 => by omega⟩⟩
  | succ f ih =>
    intro bit_index ldi s
    cases hbit : prev.discrepancies.testBit bit_index with
    | true =>
      obtain ⟨acc, s', tr, heq, htr, hacc⟩ := ih (bit_index + 1) bit_index
        (B.writeBit (prev.address.testBit bit_index) (B.readBit (B.readBit s).2).2)
      refine ⟨acc, s',
        Action.readBit :: Action.readBit ::
          Action.writeBit (prev.address.testBit bit_index) :: tr, ?_, ?_, ?_⟩
      · simp only [followLoop, and_shift_ne_zero, hbit, if_true, heq]
      · rw [htr, List.range'_succ, List.flatMap_cons]; rfl
      · rcases hacc with ⟨rfl, hnone⟩ | ⟨h1, h2, h3, h4⟩
        · exact Or.inr ⟨le_refl _, by omega, hbit, fun i hi1 hi2 => hnone i (by omega) (by omega)⟩
        · exact Or.inr ⟨by omega, by omega, h3, fun i hi1 hi2 => h4 i hi1 (by omega)⟩
    | false =>
      obtain ⟨acc, s', tr, heq, htr, hacc⟩ := ih (bit_index + 1) ldi
        (B.writeBit (prev.address.testBit bit_index) (B.readBit (B.readBit s).2).2)
      refine ⟨acc, s',
        Action.readBit :: Action.readBit ::
          Action.writeBit (prev.address.testBit bit_index) :: tr, ?_, ?_, ?_⟩
      · simp only [followLoop, and_shift_ne_zero, hbit, Bool.false_eq_true, if_false, heq]
      · rw [htr, List.range'_succ, List.flatMap_cons]; rfl
      · rcases hacc with ⟨h0, hnone⟩ | ⟨h1, h2, h3, h4⟩
        · refine Or.inl ⟨h0, fun i hi1 hi2 => ?_⟩
          rcases eq_or_lt_of_le hi1 with rfl | hlt
          · exact hbit
          · exact hnone i (by omega) (by omega)
        · exact Or.inr ⟨by omega, by omega, h3, fun i hi1 hi2 => h4 i hi1 (by omega)⟩

/-! ## Claim C5: the resumed prefix walk -/

/-- C5: in a resumed search, for every position strictly below the previous
`last_discrepancy_index` the engine performs the two read slots (the sensed
values are discarded), writes back the bit held at that position in the
previous state's address unmodified, and the candidate index carried
forward into the rest of the pass is the highest position below the
previous index whose bit is set in the previous discrepancy mask, or 0 when
no such position exists. -/
theorem c5_resume_prefix_walk {σ : Type} (B : Bus σ) (prev : SearchState) (s : σ) :
    ∃ acc s' tr, followLoop B prev prev.last_discrepancy_index 0 0 s = (acc, s', tr) ∧
      tr = (List.range prev.last_discrepancy_index).flatMap
        (fun k => [Action.readBit, Action.readBit, Action.writeBit (prev.address.testBit k)]) ∧
      ((acc = 0 ∧ ∀ i, i < prev.last_discrepancy_index →
          prev.discrepancies.testBit i = false) ∨
        (acc < prev.last_discrepancy_index ∧ prev.discrepancies.testBit acc = true ∧
          ∀ i, acc < i → i < prev.last_discrepancy_index →
            prev.discrepancies.testBit i = false)) := by
  obtain ⟨acc, s', tr, heq, htr, hacc⟩ :=
    followLoop_spec B prev prev.last_discrepancy_index 0 0 s
  refine ⟨acc, s', tr, heq, by rw [htr, List.range_eq_range'], ?_⟩
  rcases hacc with ⟨h1, h2⟩ | ⟨h1, h2, h3, h4⟩
  · exact Or.inl ⟨h1, fun i hi => h2 i (by omega) (by omega)⟩
  · exact Or.inr ⟨by omega, h3, fun i hi1 hi2 => h4 i hi1 (by omega)⟩

/-! ## Claim C4: the confirmation step at the previous discrepancy -/

/-- C4: in a resumed search, at the position equal to the previous
`last_discrepancy_index` the two read slots must sense both the 0-response
and the 1-response (`r1 = false` and `r2 = false`): otherwise the call
fails with `UnexpectedResponse`; when both are present, the address bit at
that position is set to 1, that bit is cleared from the discrepancy mask,
the bit 1 is written back, and the main walk resumes at the next index with
the candidate index produced by the prefix walk. -/
theorem c4_confirm_previous_discrepancy {σ : Type} (B : Bus σ) (crcOk : List Nat → Bool)
    (st : SearchState) (only_alarming : Bool) (s s2 s3 s4 s5 : σ)
    (r1 r2 : Bool) (acc : Nat) (trw trf : List Action)
    (hd : st.discrepancies ≠ 0)
    (hp : (B.reset s).1 = true)
    (hw : write_byte B (if only_alarming then SEARCH_ALARM else SEARCH_NORMAL) (B.reset s).2 =
      (s2, trw))
    (hf : followLoop B st st.last_discrepancy_index 0 0 s2 = (acc, s3, trf))
    (h1 : B.readBit s3 = (r1, s4))
    (h2 : B.readBit s4 = (r2, s5)) :
    (¬(r1 = false ∧ r2 = false) →
      device_search B crcOk (some st) only_alarming s =
        (Except.error OneWireError.unexpectedResponse, s5,
          Action.reset :: trw ++ trf ++ [Action.readBit, Action.readBit])) ∧
    ((r1 = false ∧ r2 = false) →
      device_search_core B (some st) only_alarming s =
        (let ml := mainLoop B (64 - (st.last_discrepancy_index + 1))
            (st.last_discrepancy_index + 1)
            (st.address ||| (1 <<< st.last_discrepancy_index))
            (st.discrepancies &&& not64 (1 <<< st.last_discrepancy_index)) acc
            (B.writeBit true s5)
         (ml.1.map (fun t => some t), ml.2.1,
           Action.reset :: trw ++ trf ++
             (Action.readBit :: Action.readBit :: Action.writeBit true :: ml.2.2)))) := by
  constructor
  · intro hnot
    have hcore : device_search_core B (some st) only_alarming s =
        (Except.error OneWireError.unexpectedResponse, s5,
          Action.reset :: trw ++ trf ++ [Action.readBit, Action.readBit]) := by
      cases r1 <;> cases r2 <;>
        simp_all [device_search_core, hd, hp, hw, hf, h1, h2]
    simp [device_search, hcore]
  · rintro ⟨rfl, rfl⟩
    simp [device_search_core, hd, hp, hw, hf, h1, h2]

theorem c4_witness :
    (⟨0, 1, 0⟩ : SearchState).discrepancies ≠ 0 ∧
      ¬((true : Bool) = false ∧ (true : Bool) = false) ∧
      device_search (constBus true true) (fun _ => true) (some ⟨0, 1, 0⟩) false () =
        (Except.error OneWireError.unexpectedResponse, (),
          Action.reset :: (write_byte (constBus true true) SEARCH_NORMAL ()).2 ++ [] ++
            [Action.readBit, Action.readBit]) :=
  ⟨by decide, by simp,
    (c4_confirm_previous_discrepancy (constBus true true) (fun _ => true) ⟨0, 1, 0⟩ false
        () () () () () true true 0 (write_byte (constBus true true) SEARCH_NORMAL ()).2 []
        (by decide) rfl rfl rfl rfl rfl).1 (by simp)⟩

/-! ## Claim C6: the checksum gate -/

/-- C6: whenever the search walk resolves all positions and assembles the
triple `(a, d, l)`, the call validates the eight little-endian bytes of
`a`: if validation fails the call fails with the checksum-mismatch error
and returns no address; if it succeeds the call returns the address
together with the new `SearchState`. -/
theorem c6_checksum_gate {σ : Type} (B : Bus σ) (crcOk : List Nat → Bool)
    (search_state : Option SearchState) (only_alarming : Bool) (s s' : σ)
    (a d l : Nat) (tr : List Action)
    (h : device_search_core B search_state only_alarming s =
      (Except.ok (some (a, d, l)), s', tr)) :
    (crcOk (u64_to_le_bytes a) = false →
      device_search B crcOk search_state only_alarming s =
        (Except.error OneWireError.crcMismatch, s', tr)) ∧
    (crcOk (u64_to_le_bytes a) = true →
      device_search B crcOk search_state only_alarming s =
        (Except.ok (some (a, ⟨a, d, l⟩)), s', tr)) := by
  constructor <;> intro hc <;> simp [device_search, h, check_crc8, hc]

theorem c6_witness :
    ((fun _ : List Nat => false) (u64_to_le_bytes 0) = false) ∧
      device_search (constBus true false) (fun _ => false) none false () =
        (Except.error OneWireError.crcMismatch, (),
          (device_search_core (constBus true false) none false ()).2.2) :=
  ⟨rfl,
    (c6_checksum_gate (constBus true false) (fun _ => false) none false () ()
        0 (2 ^ 64 - 1) 63
        ((device_search_core (constBus true false) none false ()).2.2) (by rfl)).1 rfl⟩

/-! ## Claim C8: send_command and the presence pulse -/

/-- C8 counterexample: on a bus whose primitives all succeed and whose
reset senses no presence pulse, `send_command` does not fail: it proceeds
to write the SKIP-ROM byte (bits 0,0,1,1,0,0,1,1, LSB first) and the
command byte `0x44` (bits 0,0,1,0,0,0,1,0), refuting the claim that a
presence-less reset makes `send_command` return a failure. -/
theorem c8_counterexample :
    noPresenceBus.reset () = Except.ok (false, ()) ∧
      send_command_io noPresenceBus 0x44 none () =
        Except.ok ((),
          [Action.reset,
           Action.writeBit false, Action.writeBit false, Action.writeBit true,
           Action.writeBit true, Action.writeBit false, Action.writeBit false,
           Action.writeBit true, Action.writeBit true,
           Action.writeBit false, Action.writeBit false, Action.writeBit true,
           Action.writeBit false, Action.writeBit false, Action.writeBit false,
           Action.writeBit true, Action.writeBit false]) :=
  ⟨rfl, rfl⟩

/-- C8 amended: `send_command` never inspects the presence result of its
initial reset: after any successful reset — presence pulse sensed or not —
it proceeds to the match-or-skip bytes and the command byte (the right-hand
side below does not depend on `present`); it can only fail when an
underlying primitive fails. -/
theorem c8_presence_ignored {σ ε : Type} (B : BusIO σ ε) (command : Nat)
    (address : Option Nat) (s : σ) (present : Bool) (s1 : σ)
    (h : B.reset s = Except.ok (present, s1)) :
    send_command_io B command address s =
      (match address_and_command_io B command address s1 with
       | Except.error e => Except.error e
       | Except.ok r => Except.ok (r.1, Action.reset :: r.2)) := by
  simp [send_command_io, h]

theorem c8_witness :
    noPresenceBus.reset () = Except.ok (false, ()) ∧
      send_command_io noPresenceBus 0x44 none () =
        (match address_and_command_io noPresenceBus 0x44 none () with
         | Except.error e => Except.error e
         | Except.ok r => Except.ok (r.1, Action.reset :: r.2)) :=
  ⟨rfl, c8_presence_ignored noPresenceBus 0x44 none () false () rfl⟩

/-! ## The main walk: structural invariant -/

theorem testBit_true_lt_64 {x l : Nat} (hx : x < 2 ^ 64) (h : x.testBit l = true) : l < 64 := by
  by_contra hge
  rw [testBit_ge_64 hx (by omega)] at h
  cases h

/-- Structural invariant of the main walk over an arbitrary bus: whenever it
completes without error, the address and mask stay inside `u64`, the mask has
no bits at unwalked positions, the address holds 0 at every mask position,
and the carried index is the highest set mask bit (0 for an empty mask). -/
theorem mainLoop_inv {σ : Type} (B : Bus σ) :
    ∀ fuel bit_index address discrepancies ldi s a' d' l' s' tr,
      mainLoop B fuel bit_index address discrepancies ldi s =
        (Except.ok (a', d', l'), s', tr) →
      bit_index + fuel ≤ 64 →
      address < 2 ^ 64 → discrepancies < 2 ^ 64 →
      (∀ j, bit_index ≤ j → discrepancies.testBit j = false) →
      (∀ j, discrepancies.testBit j = true → address.testBit j = false) →
      highBit discrepancies ldi →
      a' < 2 ^ 64 ∧ d' < 2 ^ 64 ∧
        (∀ j, bit_index + fuel ≤ j → d'.testBit j = false) ∧
        (∀ j, d'.testBit j = true → a'.testBit j = false) ∧
        highBit d' l' := by
  intro fuel
  induction fuel with
  | zero =>
    intro bit_index address discrepancies ldi s a' d' l' s' tr h hle ha hd hnone hzero hhb
    simp only [mainLoop, Prod.mk.injEq, Except.ok.injEq] at h
    obtain ⟨⟨rfl, rfl, rfl⟩, -, -⟩ := h
    exact ⟨ha, hd, fun j hj => hnone j (by omega), hzero, hhb⟩
  | succ f ih =>
    intro bit_index address discrepancies ldi s a' d' l' s' tr h hle ha hd hnone hzero hhb
    have hbi : bit_index < 64 := by omega
    simp only [mainLoop] at h
    cases hr1 : (B.readBit s).1 <;> cases hr2 : (B.readBit (B.readBit s).2).1 <;>
      simp only [hr1, hr2, Bool.not_true, Bool.not_false] at h
    · -- both responses present: discrepancy, choose 0
      rcases hml : mainLoop B f (bit_index+1) (address &&& not64 (1 <<< bit_index))
          (discrepancies ||| (1 <<< bit_index)) bit_index
          (B.writeBit false (B.readBit (B.readBit s).2).2) with ⟨res, ms, mtr⟩
      rw [hml] at h
      simp only [Prod.mk.injEq] at h
      obtain ⟨rfl, -, -⟩ := h
      have hcon := ih (bit_index+1) (address &&& not64 (1 <<< bit_index))
        (discrepancies ||| (1 <<< bit_index)) bit_index _ a' d' l' ms mtr hml
        (by omega)
        (clear_lt address bit_index ha)
        (Nat.or_lt_two_pow hd (by rw [Nat.one_shiftLeft]; exact Nat.pow_lt_pow_right (by decide) hbi))
        (by
          intro j hj
          rw [testBit_set]
          have h1 := hnone j (by omega)
          have h2 : bit_index ≠ j := by omega
          simp [h1, h2])
        (by
          intro j hj
          rw [testBit_set] at hj
          rcases Bool.or_eq_true_iff.mp hj with hj1 | hj2
          · have hjlt : j < bit_index := by
              by_contra hge
              rw [hnone j (by omega)] at hj1
              cases hj1
            rw [testBit_clear address bit_index j (by omega)]
            simp [hzero j hj1]
          · have hbj : bit_index = j := of_decide_eq_true hj2
            subst hbj
            rw [testBit_clear address bit_index bit_index (by omega)]
            simp)
        (by
          refine Or.inr ⟨?_, ?_⟩
          · rw [testBit_set]; simp
          · intro k hk
            rw [testBit_set]
            have h1 := hnone k (by omega)
            have h2 : bit_index ≠ k := by omega
            simp [h1, h2])
      exact ⟨hcon.1, hcon.2.1, fun j hj => hcon.2.2.1 j (by omega), hcon.2.2.2⟩
    · -- only the 0-response: choose 0
      rcases hml : mainLoop B f (bit_index+1) (address &&& not64 (1 <<< bit_index))
          discrepancies ldi (B.writeBit false (B.readBit (B.readBit s).2).2) with ⟨res, ms, mtr⟩
      rw [hml] at h
      simp only [Prod.mk.injEq] at h
      obtain ⟨rfl, -, -⟩ := h
      have hcon := ih (bit_index+1) _ _ _ _ a' d' l' ms mtr hml (by omega)
        (clear_lt address bit_index ha) hd
        (fun j hj => hnone j (by omega))
        (by
          intro j hj
          have hjlt : j < bit_index := by
            by_contra hge
            rw [hnone j (by omega)] at hj
            cases hj
          rw [testBit_clear address bit_index j (by omega)]
          simp [hzero j hj])
        hhb
      exact ⟨hcon.1, hcon.2.1, fun j hj => hcon.2.2.1 j (by omega), hcon.2.2.2⟩
    · -- only the 1-response: choose 1
      rcases hml : mainLoop B f (bit_index+1) (address ||| (1 <<< bit_index))
          discrepancies ldi (B.writeBit true (B.readBit (B.readBit s).2).2) with ⟨res, ms, mtr⟩
      rw [hml] at h
      simp only [Prod.mk.injEq] at h
      obtain ⟨rfl, -, -⟩ := h
      have hcon := ih (bit_index+1) _ _ _ _ a' d' l' ms mtr hml (by omega)
        (set_lt address bit_index ha hbi) hd
        (fun j hj => hnone j (by omega))
        (by
          intro j hj
          have hjlt : j < bit_index := by
            by_contra hge
            rw [hnone j (by omega)] at hj
            cases hj
          rw [testBit_set]
          have h2 : bit_index ≠ j := by omega
          simp [hzero j hj, h2])
        hhb
      exact ⟨hcon.1, hcon.2.1, fun j hj => hcon.2.2.1 j (by omega), hcon.2.2.2⟩
    · -- neither response: the walk fails, contradicting success
      simp at h

/-! ## Claim C10: the search-state invariant -/

/-- C10: every `SearchState` returned by a successful `device_search` call
whose input state (when present) itself satisfies the property satisfies:
the address has bit 0 at every position set in the discrepancy mask, and
`last_discrepancy_index` is the index of the highest set mask bit when the
mask is nonzero and 0 when it is zero (`StateProp`); the `u64` bounds of the
Rust field types (`wf64`) are carried along. -/
theorem c10_search_state_invariant {σ : Type} (B : Bus σ) (crcOk : List Nat → Bool)
    (search_state : Option SearchState) (only_alarming : Bool) (s s' : σ)
    (a : Nat) (st' : SearchState) (tr : List Action)
    (hin : ∀ st0, search_state = some st0 → wf64 st0 ∧ StateProp st0)
    (h : device_search B crcOk search_state only_alarming s =
      (Except.ok (some (a, st')), s', tr)) :
    wf64 st' ∧ StateProp st' := by
  rcases hcore : device_search_core B search_state only_alarming s with ⟨res, s2, tr2⟩
  rw [device_search, hcore] at h
  rcases res with e | o
  · simp at h
  rcases o with - | ⟨a0, d0, l0⟩
  · simp at h
  dsimp only [] at h
  rcases hcrc : check_crc8 crcOk (u64_to_le_bytes a0) with e | u
  · rw [hcrc] at h; simp at h
  rw [hcrc] at h
  simp only [Prod.mk.injEq, Except.ok.injEq, Option.some.injEq] at h
  obtain ⟨⟨rfl, rfl⟩, rfl, rfl⟩ := h
  clear hcrc
  rcases search_state with - | st0
  · -- fresh search
    by_cases hp : (B.reset s).1 = true
    · rcases hml : mainLoop B 64 0 0 0 0
          (write_byte B (if only_alarming then SEARCH_ALARM else SEARCH_NORMAL) (B.reset s).2).1
        with ⟨mres, ms, mtr⟩
      rcases mres with e | ⟨a1, d1, l1⟩
      · simp [device_search_core, hp, hml, Except.map] at hcore
      · simp [device_search_core, hp, hml, Except.map] at hcore
        obtain ⟨⟨rfl, rfl, rfl⟩, -⟩ := hcore
        have hc := mainLoop_inv B 64 0 0 0 0 _ a1 d1 l1 ms mtr hml (by omega)
          (by decide) (by decide) (fun j _ => Nat.zero_testBit j)
          (fun j hj => absurd hj (by simp)) (Or.inl ⟨rfl, rfl⟩)
        exact ⟨⟨hc.1, hc.2.1⟩, hc.2.2.2.1, hc.2.2.2.2⟩
    · have hp' : (B.reset s).1 = false := by
        revert hp; cases (B.reset s).1 <;> simp
      simp [device_search_core, hp'] at hcore
  · -- resumed search
    obtain ⟨wf0, sp0⟩ := hin st0 rfl
    by_cases hd0 : st0.discrepancies = 0
    · simp [device_search_core, hd0] at hcore
    · have hBitL : st0.discrepancies.testBit st0.last_discrepancy_index = true := by
        rcases sp0.2 with ⟨hz, -⟩ | ⟨hb, -⟩
        · exact absurd hz hd0
        · exact hb
      have habove : ∀ k, st0.last_discrepancy_index < k →
          st0.discrepancies.testBit k = false := by
        rcases sp0.2 with ⟨hz, -⟩ | ⟨-, ha⟩
        · exact absurd hz hd0
        · exact ha
      have hL : st0.last_discrepancy_index < 64 := testBit_true_lt_64 wf0.2 hBitL
      by_cases hp : (B.reset s).1 = true
      · rcases hfl : followLoop B st0 st0.last_discrepancy_index 0 0
            (write_byte B (if only_alarming then SEARCH_ALARM else SEARCH_NORMAL) (B.reset s).2).1
          with ⟨acc, s3, trf⟩
        -- the generic description of the resume loop, transported to this run
        obtain ⟨acc', s3', trf', heq', -, hacc'⟩ :=
          followLoop_spec B st0 st0.last_discrepancy_index 0 0
            (write_byte B (if only_alarming then SEARCH_ALARM else SEARCH_NORMAL) (B.reset s).2).1
        rw [hfl] at heq'
        injection heq' with h1 hrest
        injection hrest with h2 h3
        subst h1
        cases hc1 : (B.readBit s3).1
        · cases hc2 : (B.readBit (B.readBit s3).2).1
          · -- both responses still present: the resumed pass continues
            rcases hml : mainLoop B (63 - st0.last_discrepancy_index)
                (st0.last_discrepancy_index + 1)
                (st0.address ||| (1 <<< st0.last_discrepancy_index))
                (st0.discrepancies &&& not64 (1 <<< st0.last_discrepancy_index)) acc
                (B.writeBit true (B.readBit (B.readBit s3).2).2) with ⟨mres, ms, mtr⟩
            rcases mres with e | ⟨a1, d1, l1⟩
            · simp [device_search_core, hd0, hp, hfl, hc1, hc2, hml, Except.map] at hcore
            · simp [device_search_core, hd0, hp, hfl, hc1, hc2, hml, Except.map] at hcore
              obtain ⟨⟨rfl, rfl, rfl⟩, -⟩ := hcore
              have hdin_lt : st0.discrepancies &&&
                  not64 (1 <<< st0.last_discrepancy_index) < 2 ^ 64 :=
                clear_lt _ _ wf0.2
              have hdin_none : ∀ j, st0.last_discrepancy_index + 1 ≤ j →
                  (st0.discrepancies &&& not64 (1 <<< st0.last_discrepancy_index)).testBit j
                    = false := by
                intro j hj
                by_cases hj64 : j < 64
                · rw [testBit_clear _ _ _ hj64]
                  simp [habove j (by omega)]
                · exact testBit_ge_64 hdin_lt (by omega)
              have hdin_zero : ∀ j,
                  (st0.discrepancies &&& not64 (1 <<< st0.last_discrepancy_index)).testBit j
                    = true →
                  (st0.address ||| (1 <<< st0.last_discrepancy_index)).testBit j = false := by
                intro j hj
                have hj64 : j < 64 := testBit_true_lt_64 hdin_lt hj
                rw [testBit_clear _ _ _ hj64] at hj
                rw [Bool.and_eq_true] at hj
                have hdj : st0.discrepancies.testBit j = true := hj.1
                have hLj : st0.last_discrepancy_index ≠ j := by
                  intro hcontra
                  rw [hcontra] at hj
                  simp at hj
                rw [testBit_set]
                simp [sp0.1 j hdj, hLj]
              have hhb_in : highBit
                  (st0.discrepancies &&& not64 (1 <<< st0.last_discrepancy_index)) acc := by
                rcases hacc' with ⟨rfl, hnb⟩ | ⟨-, hlt, hbit, hbetween⟩
                · refine Or.inl ⟨?_, rfl⟩
                  apply Nat.eq_of_testBit_eq
                  intro i
                  rw [Nat.zero_testBit]
                  by_cases hi64 : i < 64
                  · rw [testBit_clear _ _ _ hi64]
                    rcases Nat.lt_trichotomy i st0.last_discrepancy_index with hi | rfl | hi
                    · simp [hnb i (by omega) (by omega)]
                    · simp
                    · simp [habove i hi]
                  · exact testBit_ge_64 hdin_lt (by omega)
                · rw [Nat.zero_add] at hlt
                  refine Or.inr ⟨?_, ?_⟩
                  · rw [testBit_clear _ _ _ (by omega)]
                    have : st0.last_discrepancy_index ≠ acc := by omega
                    simp [hbit, this]
                  · intro k hk
                    by_cases hk64 : k < 64
                    · rw [testBit_clear _ _ _ hk64]
                      rcases Nat.lt_trichotomy k st0.last_discrepancy_index with hkk | rfl | hkk
                      · simp [hbetween k hk (by omega)]
                      · simp
                      · simp [habove k hkk]
                    · exact testBit_ge_64 hdin_lt (by omega)
              have hc := mainLoop_inv B (63 - st0.last_discrepancy_index)
                (st0.last_discrepancy_index + 1) _ _ acc _ a1 d1 l1 ms mtr hml
                (by omega) (set_lt _ _ wf0.1 hL) hdin_lt hdin_none hdin_zero hhb_in
              exact ⟨⟨hc.1, hc.2.1⟩, hc.2.2.2.1, hc.2.2.2.2⟩
          · -- the 1-response is missing: the pass fails, contradicting success
            simp [device_search_core, hd0, hp, hfl, hc1, hc2] at hcore
        · -- the 0-response is missing: the pass fails, contradicting success
          simp [device_search_core, hd0, hp, hfl, hc1] at hcore
      · have hp' : (B.reset s).1 = false := by
          revert hp; cases (B.reset s).1 <;> simp
        simp [device_search_core, hd0, hp'] at hcore

theorem c10_witness :
    (∀ st0 : SearchState, (none : Option SearchState) = some st0 → wf64 st0 ∧ StateProp st0) ∧
      (wf64 ⟨0, 2 ^ 64 - 1, 63⟩ ∧ StateProp ⟨0, 2 ^ 64 - 1, 63⟩) :=
  ⟨fun _ h => Option.noConfusion h,
    c10_search_state_invariant (constBus true false) (fun _ => true) none false () ()
      0 ⟨0, 2 ^ 64 - 1, 63⟩
      ((device_search (constBus true false) (fun _ => true) none false ()).2.2)
      (fun _ h => Option.noConfusion h) (by rfl)⟩

/-! ## Transmission order: basic theory -/

theorem transLt_irrefl (a : Nat) : ¬ transLt a a := by
  rintro ⟨k, -, h1, h2, -⟩
  rw [h1] at h2
  cases h2

theorem transLt_trans {a b c : Nat} (h1 : transLt a b) (h2 : transLt b c) : transLt a c := by
  obtain ⟨k1, hk1, ha1, hb1, hagree1⟩ := h1
  obtain ⟨k2, hk2, hb2, hc2, hagree2⟩ := h2
  rcases Nat.lt_trichotomy k1 k2 with h | rfl | h
  · exact ⟨k1, hk1, ha1, by rw [← hagree2 k1 h]; exact hb1,
      fun j hj => (hagree1 j hj).trans (hagree2 j (by omega))⟩
  · rw [hb1] at hb2; cases hb2
  · exact ⟨k2, hk2, by rw [hagree1 k2 h]; exact hb2, hc2,
      fun j hj => (hagree1 j (by omega)).trans (hagree2 j hj)⟩

theorem transLt_asymm {a b : Nat} (h1 : transLt a b) : ¬ transLt b a :=
  fun h2 => transLt_irrefl a (transLt_trans h1 h2)

instance : IsTrans Nat transLt := ⟨fun _ _ _ => transLt_trans⟩

theorem transLt_total {a b : Nat} (ha : a < 2 ^ 64) (hb : b < 2 ^ 64) (hne : a ≠ b) :
    transLt a b ∨ transLt b a := by
  have hex : ∃ k, ¬(a.testBit k = b.testBit k) := by
    by_contra hc
    push_neg at hc
    exact hne (Nat.eq_of_testBit_eq hc)
  have hk := Nat.find_spec hex
  have hmin : ∀ j, j < Nat.find hex → a.testBit j = b.testBit j :=
    fun j hj => not_not.mp (Nat.find_min hex hj)
  have hk64 : Nat.find hex < 64 := by
    by_contra hge
    exact hk ((testBit_ge_64 ha (by omega)).trans (testBit_ge_64 hb (by omega)).symm)
  cases hab : a.testBit (Nat.find hex) <;> cases hbb : b.testBit (Nat.find hex)
  · exact absurd (hab.trans hbb.symm) hk
  · exact Or.inl ⟨Nat.find hex, hk64, hab, hbb, hmin⟩
  · exact Or.inr ⟨Nat.find hex, hk64, hbb, hab, fun j hj => (hmin j hj).symm⟩
  · exact absurd (hab.trans hbb.symm) hk

/-! ## The device fixture: step reductions -/

theorem searchBus_readBit_slot1 (D L : List Nat) (p : Nat) :
    searchBus.readBit ⟨D, L, 0, p, false⟩ =
      (L.all (fun d => d.testBit p), ⟨D, L, 0, p, true⟩) := by
  simp [searchBus]

theorem searchBus_readBit_slot2 (D L : List Nat) (p : Nat) :
    searchBus.readBit ⟨D, L, 0, p, true⟩ =
      (L.all (fun d => !d.testBit p), ⟨D, L, 0, p, false⟩) := by
  simp [searchBus]

theorem searchBus_writeBit (D L : List Nat) (p : Nat) (sl : Bool) (b : Bool) :
    searchBus.writeBit b ⟨D, L, 0, p, sl⟩ =
      ⟨D, L.filter (fun d => d.testBit p == b), 0, p + 1, false⟩ := by
  simp [searchBus]

theorem searchBus_write_byte (v : Nat) (D L : List Nat) (p : Nat) (sl : Bool) :
    (write_byte searchBus v ⟨D, L, 8, p, sl⟩).1 = ⟨D, L, 0, p, sl⟩ := rfl

theorem searchBus_reset (s : BusState) :
    searchBus.reset s = (!s.devices.isEmpty, ⟨s.devices, s.devices, 8, 0, false⟩) := rfl

/-! ## The resume loop on the device fixture -/

theorem followLoop_searchBus (prev : SearchState) :
    ∀ fuel p acc D L,
      ∃ acc' L' tr,
        followLoop searchBus prev fuel p acc ⟨D, L, 0, p, false⟩ =
          (acc', ⟨D, L', 0, p + fuel, false⟩, tr) ∧
        ∀ x, x ∈ L' ↔
          (x ∈ L ∧ ∀ i, p ≤ i → i < p + fuel → x.testBit i = prev.address.testBit i) := by
  intro fuel
  induction fuel with
  | zero =>
    intro p acc D L
    refine ⟨acc, L, [], ?_, ?_⟩
    · rw [Nat.add_zero]
      rfl
    · intro x
      constructor
      · exact fun hx => ⟨hx, fun i h1 h2 => by omega⟩
      · exact fun hx => hx.1
  | succ f ih =>
    intro p acc D L
    obtain ⟨acc', L', tr, heq, hmem⟩ := ih (p+1)
      (if prev.discrepancies.testBit p then p else acc) D
      (L.filter (fun d => d.testBit p == prev.address.testBit p))
    refine ⟨acc', L', Action.readBit :: Action.readBit ::
      Action.writeBit (prev.address.testBit p) :: tr, ?_, ?_⟩
    · have harith : p + (f + 1) = p + 1 + f := by omega
      rw [harith]
      simp only [followLoop, searchBus_readBit_slot1, searchBus_readBit_slot2,
        searchBus_writeBit, and_shift_ne_zero, heq]
    · intro x
      rw [hmem x, List.mem_filter]
      constructor
      · rintro ⟨⟨hxL, hxp⟩, hrest⟩
        refine ⟨hxL, fun i h1 h2 => ?_⟩
        rcases eq_or_lt_of_le h1 with rfl | hlt
        · exact beq_iff_eq.mp hxp
        · exact hrest i (by omega) (by omega)
      · rintro ⟨hxL, hall⟩
        exact ⟨⟨hxL, beq_iff_eq.mpr (hall p (le_refl p) (by omega))⟩,
          fun i h1 h2 => hall i (by omega) (by omega)⟩

/-! ## Assembly helpers for the greedy walk -/

/-- Extending membership-and-minimality facts from the narrowed live set at
position `p + 1` back to the live set at position `p`. -/
theorem step_assemble (p : Nat) (c : Bool) (L L1 : List Nat)
    (hmem : ∀ x, x ∈ L1 ↔ (x ∈ L ∧ x.testBit p = c))
    (a' : Nat) (hap : a'.testBit p = c)
    (hmember : ∃ w ∈ L1, ∀ j, p + 1 ≤ j → w.testBit j = a'.testBit j)
    (hmin : ∀ x ∈ L1, ¬ tltFrom (p+1) x a')
    (hγ : c = true → ∀ x ∈ L, x.testBit p = true) :
    (∃ w ∈ L, ∀ j, p ≤ j → w.testBit j = a'.testBit j) ∧
      (∀ x ∈ L, ¬ tltFrom p x a') := by
  constructor
  · obtain ⟨w, hw1, hw2⟩ := hmember
    refine ⟨w, ((hmem w).mp hw1).1, fun j hj => ?_⟩
    rcases eq_or_lt_of_le hj with rfl | hlt
    · rw [((hmem w).mp hw1).2, hap]
    · exact hw2 j (by omega)
  · rintro x hx ⟨k, hk1, hk2, hk3, hk4⟩
    rcases eq_or_lt_of_le hk1 with rfl | hlt
    · -- first difference at p itself
      cases c with
      | false => rw [hap] at hk3; cases hk3
      | true => rw [hγ rfl x hx] at hk2; cases hk2
    · -- first difference above p: x survives the narrowing at p
      have hxp : x.testBit p = c := by
        rw [hk4 p (le_refl p) hlt, hap]
      exact hmin x ((hmem x).mpr ⟨hx, hxp⟩)
        ⟨k, by omega, hk2, hk3, fun i h1 h2 => hk4 i (by omega) h2⟩

/-- Translating the discrepancy-mask characterisation at positions above `p`
between the narrowed live set and the live set at `p`. -/
theorem char_extend (p j : Nat) (hj : p < j) (c : Bool) (L L1 : List Nat)
    (hmem : ∀ x, x ∈ L1 ↔ (x ∈ L ∧ x.testBit p = c))
    (a' : Nat) (hap : a'.testBit p = c) :
    (∃ x ∈ L1, x.testBit j = true ∧ agreeOn (p+1) j x a') ↔
      (∃ x ∈ L, x.testBit j = true ∧ agreeOn p j x a') := by
  constructor
  · rintro ⟨x, hx1, hx2, hx3⟩
    obtain ⟨hxL, hxp⟩ := (hmem x).mp hx1
    refine ⟨x, hxL, hx2, fun i h1 h2 => ?_⟩
    rcases eq_or_lt_of_le h1 with rfl | hlt
    · rw [hxp, hap]
    · exact hx3 i (by omega) h2
  · rintro ⟨x, hx1, hx2, hx3⟩
    have hxp : x.testBit p = c := by rw [hx3 p (le_refl p) hj, hap]
    exact ⟨x, (hmem x).mpr ⟨hx1, hxp⟩, hx2, fun i h1 h2 => hx3 i (by omega) h2⟩

/-! ## The greedy main walk on the device fixture -/

/-- Full behaviour of the main walk over the device fixture: starting at
position `p` with a nonempty selected set `L`, the walk never fails; its
result follows some selected device, is transmission-minimal among the
selected devices, and its discrepancy mask records, at each walked
position, exactly a chosen 0 against a still-selected device with a 1. -/
theorem mainLoop_searchBus :
    ∀ fuel p D L address discrepancies ldi,
      p + fuel = 64 → L ≠ [] → (∀ x ∈ L, x < 2 ^ 64) → address < 2 ^ 64 →
      (∀ j, p ≤ j → discrepancies.testBit j = false) →
      ∃ a' d' l' L' tr,
        mainLoop searchBus fuel p address discrepancies ldi ⟨D, L, 0, p, false⟩ =
          (Except.ok (a', d', l'), ⟨D, L', 0, 64, false⟩, tr) ∧
        a' < 2 ^ 64 ∧
        (∀ j, j < p → a'.testBit j = address.testBit j) ∧
        (∀ j, j < p → d'.testBit j = discrepancies.testBit j) ∧
        (∃ w ∈ L, ∀ j, p ≤ j → w.testBit j = a'.testBit j) ∧
        (∀ x ∈ L, ¬ tltFrom p x a') ∧
        (∀ j, p ≤ j → (d'.testBit j = true ↔
          (a'.testBit j = false ∧ ∃ x ∈ L, x.testBit j = true ∧ agreeOn p j x a'))) := by
  intro fuel
  induction fuel with
  | zero =>
    intro p D L address discrepancies ldi hpf hne hbound haddr hdnone
    have hp64 : p = 64 := by omega
    subst hp64
    obtain ⟨w, hw⟩ := List.exists_mem_of_ne_nil L hne
    refine ⟨address, discrepancies, ldi, L, [], rfl, haddr,
      fun j _ => rfl, fun j _ => rfl, ⟨w, hw, fun j hj => ?_⟩, ?_, ?_⟩
    · rw [testBit_ge_64 (hbound w hw) hj, testBit_ge_64 haddr hj]
    · rintro x hx ⟨k, hk1, -, hk3, -⟩
      rw [testBit_ge_64 haddr (by omega)] at hk3
      cases hk3
    · intro j hj
      rw [hdnone j hj]
      constructor
      · intro h; cases h
      · rintro ⟨-, x, hx1, hx2, -⟩
        rw [testBit_ge_64 (hbound x hx1) (by omega)] at hx2
        cases hx2
  | succ f ih =>
    intro p D L address discrepancies ldi hpf hne hbound haddr hdnone
    have hp64 : p < 64 := by omega
    obtain ⟨x0, hx0⟩ := List.exists_mem_of_ne_nil L hne
    by_cases hall1 : ∀ x ∈ L, x.testBit p = true
    · -- every selected device carries a 1: the walk chooses 1
      have hr1 : L.all (fun d => d.testBit p) = true :=
        List.all_eq_true.mpr hall1
      have hr2 : L.all (fun d => !d.testBit p) = false := by
        cases hA : L.all (fun d => !d.testBit p)
        · rfl
        · have hx := List.all_eq_true.mp hA x0 hx0
          rw [hall1 x0 hx0] at hx
          simp at hx
      have hmem : ∀ x, x ∈ L.filter (fun d => d.testBit p == true) ↔
          (x ∈ L ∧ x.testBit p = true) := by
        intro x
        rw [List.mem_filter]
        exact and_congr Iff.rfl beq_iff_eq
      obtain ⟨a', d', l', L', tr, heq, ha', hlowa, hlowd, hmember, hmin, hchar⟩ :=
        ih (p+1) D (L.filter (fun d => d.testBit p == true))
          (address ||| (1 <<< p)) discrepancies ldi (by omega)
          (List.ne_nil_of_mem ((hmem x0).mpr ⟨hx0, hall1 x0 hx0⟩))
          (fun x hx => hbound x ((hmem x).mp hx).1)
          (set_lt address p haddr hp64)
          (fun j hj => hdnone j (by omega))
      have hap : a'.testBit p = true := by
        rw [hlowa p (by omega), testBit_set]
        simp
      have hsa := step_assemble p true L _ hmem a' hap hmember hmin (fun _ => hall1)
      refine ⟨a', d', l', L', Action.readBit :: Action.readBit ::
        Action.writeBit true :: tr, ?_, ha', ?_, ?_, hsa.1, hsa.2, ?_⟩
      · simp only [mainLoop, searchBus_readBit_slot1, searchBus_readBit_slot2, hr1, hr2,
          Bool.not_true, Bool.not_false, searchBus_writeBit, heq]
      · intro j hj
        rw [hlowa j (by omega), testBit_set]
        have hpj : ¬(p = j) := by omega
        simp [hpj]
      · intro j hj
        exact hlowd j (by omega)
      · intro j hj
        rcases eq_or_lt_of_le hj with rfl | hlt
        · rw [hlowd p (by omega), hdnone p (le_refl p)]
          constructor
          · intro h; cases h
          · rintro ⟨hfalse, -⟩
            rw [hap] at hfalse
            cases hfalse
        · rw [hchar j (by omega)]
          exact and_congr Iff.rfl (char_extend p j hlt true L _ hmem a' hap)
    · by_cases hex1 : ∃ x ∈ L, x.testBit p = true
      · -- both a 0-device and a 1-device persist: discrepancy, choose 0
        obtain ⟨x1, hx1, hbit1⟩ := hex1
        obtain ⟨xz, hxz, hbitz⟩ : ∃ x ∈ L, x.testBit p = false := by
          by_contra hno
          push_neg at hno
          refine hall1 fun x hx => ?_
          have hb := hno x hx
          revert hb
          cases x.testBit p <;> simp
        have hr1 : L.all (fun d => d.testBit p) = false := by
          cases hA : L.all (fun d => d.testBit p)
          · rfl
          · have hx := List.all_eq_true.mp hA xz hxz
            rw [hbitz] at hx
            cases hx
        have hr2 : L.all (fun d => !d.testBit p) = false := by
          cases hA : L.all (fun d => !d.testBit p)
          · rfl
          · have hx := List.all_eq_true.mp hA x1 hx1
            rw [hbit1] at hx
            simp at hx
        have hmem : ∀ x, x ∈ L.filter (fun d => d.testBit p == false) ↔
            (x ∈ L ∧ x.testBit p = false) := by
          intro x
          rw [List.mem_filter]
          exact and_congr Iff.rfl beq_iff_eq
        obtain ⟨a', d', l', L', tr, heq, ha', hlowa, hlowd, hmember, hmin, hchar⟩ :=
          ih (p+1) D (L.filter (fun d => d.testBit p == false))
            (address &&& not64 (1 <<< p)) (discrepancies ||| (1 <<< p)) p (by omega)
            (List.ne_nil_of_mem ((hmem xz).mpr ⟨hxz, hbitz⟩))
            (fun x hx => hbound x ((hmem x).mp hx).1)
            (clear_lt address p haddr)
            (by
              intro j hj
              rw [testBit_set]
              have h1 := hdnone j (by omega)
              have h2 : ¬(p = j) := by omega
              simp [h1, h2])
        have hap : a'.testBit p = false := by
          rw [hlowa p (by omega), testBit_clear address p p hp64]
          simp
        have hsa := step_assemble p false L _ hmem a' hap hmember hmin
          (fun h => Bool.noConfusion h)
        refine ⟨a', d', l', L', Action.readBit :: Action.readBit ::
          Action.writeBit false :: tr, ?_, ha', ?_, ?_, hsa.1, hsa.2, ?_⟩
        · simp only [mainLoop, searchBus_readBit_slot1, searchBus_readBit_slot2, hr1, hr2,
            Bool.not_true, Bool.not_false, searchBus_writeBit, heq]
        · intro j hj
          rw [hlowa j (by omega), testBit_clear address p j (by omega)]
          have hpj : ¬(p = j) := by omega
          simp [hpj]
        · intro j hj
          rw [hlowd j (by omega), testBit_set]
          have hpj : ¬(p = j) := by omega
          simp [hpj]
        · intro j hj
          rcases eq_or_lt_of_le hj with rfl | hlt
          · rw [hlowd p (by omega), testBit_set]
            have hdec : (discrepancies.testBit p || decide (p = p)) = true := by simp
            rw [hdec]
            constructor
            · intro _
              exact ⟨hap, x1, hx1, hbit1, fun i h1 h2 => absurd h2 (by omega)⟩
            · intro _
              rfl
          · rw [hchar j (by omega)]
            exact and_congr Iff.rfl (char_extend p j hlt false L _ hmem a' hap)
      · -- every selected device carries a 0: the walk chooses 0
        have hall0 : ∀ x ∈ L, x.testBit p = false := by
          intro x hx
          by_contra hb
          exact hex1 ⟨x, hx, by revert hb; cases x.testBit p <;> simp⟩
        have hr1 : L.all (fun d => d.testBit p) = false := by
          cases hA : L.all (fun d => d.testBit p)
          · rfl
          · have hx := List.all_eq_true.mp hA x0 hx0
            rw [hall0 x0 hx0] at hx
            cases hx
        have hr2 : L.all (fun d => !d.testBit p) = true := by
          refine List.all_eq_true.mpr fun x hx => ?_
          rw [hall0 x hx]
          rfl
        have hmem : ∀ x, x ∈ L.filter (fun d => d.testBit p == false) ↔
            (x ∈ L ∧ x.testBit p = false) := by
          intro x
          rw [List.mem_filter]
          exact and_congr Iff.rfl beq_iff_eq
        obtain ⟨a', d', l', L', tr, heq, ha', hlowa, hlowd, hmember, hmin, hchar⟩ :=
          ih (p+1) D (L.filter (fun d => d.testBit p == false))
            (address &&& not64 (1 <<< p)) discrepancies ldi (by omega)
            (List.ne_nil_of_mem ((hmem x0).mpr ⟨hx0, hall0 x0 hx0⟩))
            (fun x hx => hbound x ((hmem x).mp hx).1)
            (clear_lt address p haddr)
            (fun j hj => hdnone j (by omega))
        have hap : a'.testBit p = false := by
          rw [hlowa p (by omega), testBit_clear address p p hp64]
          simp
        have hsa := step_assemble p false L _ hmem a' hap hmember hmin
          (fun h => Bool.noConfusion h)
        refine ⟨a', d', l', L', Action.readBit :: Action.readBit ::
          Action.writeBit false :: tr, ?_, ha', ?_, ?_, hsa.1, hsa.2, ?_⟩
        · simp only [mainLoop, searchBus_readBit_slot1, searchBus_readBit_slot2, hr1, hr2,
            Bool.not_true, Bool.not_false, searchBus_writeBit, heq]
        · intro j hj
          rw [hlowa j (by omega), testBit_clear address p j (by omega)]
          have hpj : ¬(p = j) := by omega
          simp [hpj]
        · intro j hj
          exact hlowd j (by omega)
        · intro j hj
          rcases eq_or_lt_of_le hj with rfl | hlt
          · rw [hlowd p (by omega), hdnone p (le_refl p)]
            constructor
            · intro h; cases h
            · rintro ⟨-, x, hxm, hxb, -⟩
              rw [hall0 x hxm] at hxb
              cases hxb
          · rw [hchar j (by omega)]
            exact and_congr Iff.rfl (char_extend p j hlt false L _ hmem a' hap)

/-! ## Whole search passes on the device fixture -/

/-- A fresh pass over the device fixture succeeds, finds the
transmission-minimal device, preserves the device set, and leaves the
characterised discrepancy mask and highest-bit index. -/
theorem fresh_pass_core (D : List Nat) (only_alarming : Bool) (s : BusState)
    (hdev : s.devices = D) (hne : D ≠ []) (hbound : ∀ x ∈ D, x < 2 ^ 64) :
    ∃ a' d' l' L' tr,
      device_search_core searchBus none only_alarming s =
        (Except.ok (some (a', d', l')), ⟨D, L', 0, 64, false⟩, tr) ∧
      a' ∈ D ∧ a' < 2 ^ 64 ∧
      (∀ x ∈ D, ¬ transLt x a') ∧
      discChar D a' d' ∧
      highBit d' l' := by
  have hp : (searchBus.reset s).1 = true := by
    rw [searchBus_reset]
    simp only [hdev]
    cases hE : D.isEmpty
    · rfl
    · exact absurd (List.isEmpty_iff.mp hE) hne
  have hwb1 : (write_byte searchBus
      (if only_alarming then SEARCH_ALARM else SEARCH_NORMAL) (searchBus.reset s).2).1 =
      ⟨D, D, 0, 0, false⟩ := by
    rw [searchBus_reset]
    simp only [hdev]
    exact searchBus_write_byte _ D D 0 false
  obtain ⟨a', d', l', L', tr, heq, ha', hlowa, hlowd, hmember, hmin, hchar⟩ :=
    mainLoop_searchBus 64 0 D D 0 0 0 (by omega) hne hbound (by decide)
      (fun j _ => Nat.zero_testBit j)
  refine ⟨a', d', l', L',
    Action.reset :: (write_byte searchBus
      (if only_alarming then SEARCH_ALARM else SEARCH_NORMAL) (searchBus.reset s).2).2 ++ tr,
    ?_, ?_, ha', ?_, ?_, ?_⟩
  · simp [device_search_core, hp, hwb1, heq, Except.map]
  · obtain ⟨w, hw, hagree⟩ := hmember
    have : w = a' := Nat.eq_of_testBit_eq (fun j => hagree j (Nat.zero_le j))
    exact this ▸ hw
  · rintro x hx ⟨k, -, h1, h2, h3⟩
    exact hmin x hx ⟨k, Nat.zero_le k, h1, h2, fun i _ hi2 => h3 i hi2⟩
  · intro k
    rw [hchar k (Nat.zero_le k)]
    exact and_congr Iff.rfl (by
      constructor
      · rintro ⟨x, hx1, hx2, hx3⟩
        exact ⟨x, hx1, hx2, fun j hj => hx3 j (Nat.zero_le j) hj⟩
      · rintro ⟨x, hx1, hx2, hx3⟩
        exact ⟨x, hx1, hx2, fun j _ hj => hx3 j hj⟩)
  · have hc := mainLoop_inv searchBus 64 0 0 0 0 _ a' d' l' _ tr heq (by omega)
      (by decide) (by decide) (fun j _ => Nat.zero_testBit j)
      (fun j hj => absurd hj (by simp)) (Or.inl ⟨rfl, rfl⟩)
    exact hc.2.2.2.2

/-- A resumed pass over the device fixture, starting from an invariant
state with a nonzero mask, succeeds, finds the transmission-successor of the
previously found address, preserves the device set, and leaves the
characterised discrepancy mask and highest-bit index. -/
theorem resumed_pass_core (D : List Nat) (st : SearchState) (only_alarming : Bool)
    (s : BusState) (hdev : s.devices = D) (hbound : ∀ x ∈ D, x < 2 ^ 64)
    (hinv : Inv D st) (hd0 : st.discrepancies ≠ 0) :
    ∃ a' d' l' L' tr,
      device_search_core searchBus (some st) only_alarming s =
        (Except.ok (some (a', d', l')), ⟨D, L', 0, 64, false⟩, tr) ∧
      a' ∈ D ∧ a' < 2 ^ 64 ∧
      transLt st.address a' ∧
      (∀ x ∈ D, transLt st.address x → ¬ transLt x a') ∧
      discChar D a' d' ∧
      highBit d' l' := by
  obtain ⟨haD, haB, hchar0, hhb0⟩ := hinv
  have hBitL : st.discrepancies.testBit st.last_discrepancy_index = true := by
    rcases hhb0 with ⟨hz, -⟩ | ⟨hb, -⟩
    · exact absurd hz hd0
    · exact hb
  have habove : ∀ k, st.last_discrepancy_index < k → st.discrepancies.testBit k = false := by
    rcases hhb0 with ⟨hz, -⟩ | ⟨-, ha⟩
    · exact absurd hz hd0
    · exact ha
  obtain ⟨haL0, x1, hx1D, hx1bit, hx1agree⟩ :=
    (hchar0 st.last_discrepancy_index).mp hBitL
  have hL : st.last_discrepancy_index < 64 := testBit_true_lt_64 (hbound x1 hx1D) hx1bit
  have hdiscB : st.discrepancies < 2 ^ 64 := by
    refine Nat.lt_pow_two_of_testBit _ fun i hi => ?_
    cases hdi : st.discrepancies.testBit i
    · rfl
    · obtain ⟨-, x, hxD, hxb, -⟩ := (hchar0 i).mp hdi
      rw [testBit_ge_64 (hbound x hxD) hi] at hxb
      cases hxb
  have hne : D ≠ [] := List.ne_nil_of_mem haD
  have hp : (searchBus.reset s).1 = true := by
    rw [searchBus_reset]
    simp only [hdev]
    cases hE : D.isEmpty
    · rfl
    · exact absurd (List.isEmpty_iff.mp hE) hne
  have hwb1 : (write_byte searchBus
      (if only_alarming then SEARCH_ALARM else SEARCH_NORMAL) (searchBus.reset s).2).1 =
      ⟨D, D, 0, 0, false⟩ := by
    rw [searchBus_reset]
    simp only [hdev]
    exact searchBus_write_byte _ D D 0 false
  -- the prefix walk
  obtain ⟨acc, L1, tr1, hfl, hmemL1⟩ :=
    followLoop_searchBus st st.last_discrepancy_index 0 0 D D
  rw [Nat.zero_add] at hfl
  have hmemL1' : ∀ x, x ∈ L1 ↔
      (x ∈ D ∧ ∀ i, i < st.last_discrepancy_index →
        x.testBit i = st.address.testBit i) := by
    intro x
    rw [hmemL1 x]
    constructor
    · rintro ⟨h1, h2⟩
      exact ⟨h1, fun i hi => h2 i (Nat.zero_le i) (by omega)⟩
    · rintro ⟨h1, h2⟩
      exact ⟨h1, fun i _ hi => h2 i (by omega)⟩
  -- the candidate index computed by the prefix walk
  obtain ⟨acc2, s3x, tr1x, hflspec, -, hacc⟩ :=
    followLoop_spec searchBus st st.last_discrepancy_index 0 0 ⟨D, D, 0, 0, false⟩
  rw [hfl] at hflspec
  have hacc2 : acc2 = acc := by
    injection hflspec with h1 h2
    exact h1.symm
  rw [hacc2] at hacc
  rw [Nat.zero_add] at hacc
  -- the confirmation reads at the previous discrepancy position
  have haL1 : st.address ∈ L1 := (hmemL1' _).mpr ⟨haD, fun i _ => rfl⟩
  have hx1L1 : x1 ∈ L1 := (hmemL1' _).mpr ⟨hx1D, fun i hi => hx1agree i hi⟩
  have hr1 : L1.all (fun d => d.testBit st.last_discrepancy_index) = false := by
    cases hA : L1.all (fun d => d.testBit st.last_discrepancy_index)
    · rfl
    · have hx := List.all_eq_true.mp hA st.address haL1
      rw [haL0] at hx
      cases hx
  have hr2 : L1.all (fun d => !d.testBit st.last_discrepancy_index) = false := by
    cases hA : L1.all (fun d => !d.testBit st.last_discrepancy_index)
    · rfl
    · have hx := List.all_eq_true.mp hA x1 hx1L1
      rw [hx1bit] at hx
      simp at hx
  -- the narrowed selection after writing the 1
  have hmemL2 : ∀ x, x ∈ L1.filter
      (fun d => d.testBit st.last_discrepancy_index) ↔
      (x ∈ L1 ∧ x.testBit st.last_discrepancy_index = true) := by
    intro x
    exact List.mem_filter
  have hx1L2 : x1 ∈ L1.filter (fun d => d.testBit st.last_discrepancy_index) :=
    (hmemL2 x1).mpr ⟨hx1L1, hx1bit⟩
  have hdin_lt : st.discrepancies &&& not64 (1 <<< st.last_discrepancy_index) < 2 ^ 64 :=
    clear_lt _ _ hdiscB
  have hdnone_in : ∀ j, st.last_discrepancy_index + 1 ≤ j →
      (st.discrepancies &&& not64 (1 <<< st.last_discrepancy_index)).testBit j = false := by
    intro j hj
    by_cases hj64 : j < 64
    · rw [testBit_clear _ _ _ hj64]
      simp [habove j (by omega)]
    · exact testBit_ge_64 hdin_lt (by omega)
  -- the main walk over the 1-branch
  obtain ⟨a', d', l', L', tr, heq, ha', hlowa, hlowd, hmember, hmin, hchar⟩ :=
    mainLoop_searchBus (63 - st.last_discrepancy_index) (st.last_discrepancy_index + 1) D
      (L1.filter (fun d => d.testBit st.last_discrepancy_index))
      (st.address ||| (1 <<< st.last_discrepancy_index))
      (st.discrepancies &&& not64 (1 <<< st.last_discrepancy_index)) acc
      (by omega) (List.ne_nil_of_mem hx1L2)
      (fun x hx => hbound x ((hmemL1' x).mp ((hmemL2 x).mp hx).1).1)
      (set_lt _ _ haB hL) hdnone_in
  -- low bits of the found address agree with the previous one
  have haalow : ∀ j, j < st.last_discrepancy_index →
      a'.testBit j = st.address.testBit j := by
    intro j hj
    rw [hlowa j (by omega), testBit_set]
    have hLj : ¬(st.last_discrepancy_index = j) := by omega
    simp [hLj]
  have haaL : a'.testBit st.last_discrepancy_index = true := by
    rw [hlowa st.last_discrepancy_index (by omega), testBit_set]
    simp
  refine ⟨a', d', l', L',
    Action.reset :: (write_byte searchBus
        (if only_alarming then SEARCH_ALARM else SEARCH_NORMAL) (searchBus.reset s).2).2 ++
      tr1 ++ (Action.readBit :: Action.readBit :: Action.writeBit true :: tr),
    ?_, ?_, ha', ?_, ?_, ?_, ?_⟩
  · simp [device_search_core, hd0, hp, hwb1, hfl, searchBus_readBit_slot1,
      searchBus_readBit_slot2, searchBus_writeBit, hr1, hr2, heq, Except.map]
  · -- the found address is a device
    obtain ⟨w, hwL2, hwagree⟩ := hmember
    obtain ⟨hwL1, hwbitL⟩ := (hmemL2 w).mp hwL2
    obtain ⟨hwD, hwlow⟩ := (hmemL1' w).mp hwL1
    have hweq : w = a' := by
      apply Nat.eq_of_testBit_eq
      intro j
      rcases Nat.lt_trichotomy j st.last_discrepancy_index with hj | rfl | hj
      · rw [hwlow j hj, haalow j hj]
      · rw [hwbitL, haaL]
      · exact hwagree j (by omega)
    exact hweq ▸ hwD
  · -- it is a strict transmission-successor
    exact ⟨st.last_discrepancy_index, hL, haL0, haaL,
      fun j hj => (haalow j hj).symm⟩
  · -- and the least one among the devices above the previous address
    rintro x hxD ⟨k, hk64, hxk0, hxk1, hkagree⟩
    have hdisck : st.discrepancies.testBit k = true :=
      (hchar0 k).mpr ⟨hxk0, x, hxD, hxk1, fun j hj => (hkagree j hj).symm⟩
    have hkL : k ≤ st.last_discrepancy_index := by
      by_contra hgt
      rw [habove k (by omega)] at hdisck
      cases hdisck
    rcases eq_or_lt_of_le hkL with rfl | hklt
    · -- the first difference is at the discrepancy position: x is in the 1-branch
      have hxL2 : x ∈ L1.filter
          (fun d => d.testBit st.last_discrepancy_index) :=
        (hmemL2 x).mpr ⟨(hmemL1' x).mpr ⟨hxD, fun i hi => (hkagree i hi).symm⟩, hxk1⟩
      rintro ⟨k', hk'64, h1, h2, h3⟩
      rcases Nat.lt_trichotomy k' st.last_discrepancy_index with hkk | hkeq2 | hkk
      · rw [haalow k' hkk, hkagree k' hkk, h1] at h2
        cases h2
      · subst hkeq2
        rw [hxk1] at h1
        cases h1
      · exact hmin x hxL2 ⟨k', by omega, h1, h2, fun i hi1 hi2 => h3 i hi2⟩
    · -- the first difference is below it: the found address stays smaller
      refine transLt_asymm ⟨k, hk64, ?_, hxk1, ?_⟩
      · rw [haalow k hklt]
        exact hxk0
      · intro j hj
        rw [haalow j (by omega)]
        exact hkagree j hj
  · -- the mask characterisation for the new address
    intro k
    rcases Nat.lt_trichotomy k st.last_discrepancy_index with hk | rfl | hk
    · have hdk : d'.testBit k = st.discrepancies.testBit k := by
        rw [hlowd k (by omega), testBit_clear _ _ _ (by omega)]
        have hLk : ¬(st.last_discrepancy_index = k) := by omega
        simp [hLk]
      rw [hdk, hchar0 k]
      constructor
      · rintro ⟨h01, x, hxD, hxb, hxag⟩
        exact ⟨by rw [haalow k hk]; exact h01, x, hxD, hxb,
          fun j hj => by rw [hxag j hj, haalow j (by omega)]⟩
      · rintro ⟨h01, x, hxD, hxb, hxag⟩
        exact ⟨by rw [← haalow k hk]; exact h01, x, hxD, hxb,
          fun j hj => by rw [hxag j hj, haalow j (by omega)]⟩
    · have hdL : d'.testBit st.last_discrepancy_index = false := by
        rw [hlowd st.last_discrepancy_index (by omega),
          testBit_clear _ _ _ hL]
        simp
      rw [hdL]
      constructor
      · intro h; cases h
      · rintro ⟨hfalse, -⟩
        rw [haaL] at hfalse
        cases hfalse
    · rw [hchar k (by omega)]
      refine and_congr Iff.rfl ⟨?_, ?_⟩
      · rintro ⟨x, hxL2, hxb, hxag⟩
        obtain ⟨hxL1, hxbitL⟩ := (hmemL2 x).mp hxL2
        obtain ⟨hxD, hxlow⟩ := (hmemL1' x).mp hxL1
        refine ⟨x, hxD, hxb, fun j hj => ?_⟩
        rcases Nat.lt_trichotomy j st.last_discrepancy_index with hjL | rfl | hjL
        · rw [hxlow j hjL, haalow j hjL]
        · rw [hxbitL, haaL]
        · exact hxag j (by omega) hj
      · rintro ⟨x, hxD, hxb, hxag⟩
        have hxL1 : x ∈ L1 := (hmemL1' x).mpr ⟨hxD, fun i hi => by
          rw [hxag i (by omega), haalow i hi]⟩
        have hxbitL : x.testBit st.last_discrepancy_index = true := by
          rw [hxag st.last_discrepancy_index (by omega), haaL]
        exact ⟨x, (hmemL2 x).mpr ⟨hxL1, hxbitL⟩, hxb,
          fun j hj1 hj2 => hxag j (by omega)⟩
  · -- the carried index is the highest set bit of the new mask
    have hhb_in : highBit
        (st.discrepancies &&& not64 (1 <<< st.last_discrepancy_index)) acc := by
      rcases hacc with ⟨rfl, hnb⟩ | ⟨-, hlt, hbit, hbetween⟩
      · refine Or.inl ⟨?_, rfl⟩
        apply Nat.eq_of_testBit_eq
        intro i
        rw [Nat.zero_testBit]
        by_cases hi64 : i < 64
        · rw [testBit_clear _ _ _ hi64]
          rcases Nat.lt_trichotomy i st.last_discrepancy_index with hi | rfl | hi
          · simp [hnb i (by omega) (by omega)]
          · simp
          · simp [habove i hi]
        · exact testBit_ge_64 hdin_lt (by omega)
      · refine Or.inr ⟨?_, ?_⟩
        · rw [testBit_clear _ _ _ (by omega)]
          have hLa : ¬(st.last_discrepancy_index = acc) := by omega
          simp [hbit, hLa]
        · intro k hk
          by_cases hk64 : k < 64
          · rw [testBit_clear _ _ _ hk64]
            rcases Nat.lt_trichotomy k st.last_discrepancy_index with hkk | rfl | hkk
            · simp [hbetween k hk (by omega)]
            · simp
            · simp [habove k hkk]
          · exact testBit_ge_64 hdin_lt (by omega)
    have hc := mainLoop_inv searchBus (63 - st.last_discrepancy_index)
      (st.last_discrepancy_index + 1) _ _ acc _ a' d' l' _ tr heq
      (by omega) (set_lt _ _ haB hL) hdin_lt hdnone_in
      (by
        intro j hj
        have hj64 : j < 64 := testBit_true_lt_64 hdin_lt hj
        rw [testBit_clear _ _ _ hj64] at hj
        rw [Bool.and_eq_true] at hj
        have hdj := hj.1
        have hLj : st.last_discrepancy_index ≠ j := by
          intro hcontra
          rw [hcontra] at hj
          simp at hj
        rw [testBit_set]
        obtain ⟨hz, -⟩ := (hchar0 j).mp hdj
        simp [hz, hLj])
      hhb_in
    exact hc.2.2.2.2

/-- A fresh `device_search` call over the fixture finds the
transmission-minimal device, with the full state invariant. -/
theorem fresh_pass (D : List Nat) (crcOk : List Nat → Bool) (only_alarming : Bool)
    (s : BusState) (hdev : s.devices = D) (hne : D ≠ []) (hbound : ∀ x ∈ D, x < 2 ^ 64)
    (hcrc : ∀ x ∈ D, crcOk (u64_to_le_bytes x) = true) :
    ∃ a' st' L' tr,
      device_search searchBus crcOk none only_alarming s =
        (Except.ok (some (a', st')), ⟨D, L', 0, 64, false⟩, tr) ∧
      st'.address = a' ∧ Inv D st' ∧ (∀ x ∈ D, ¬ transLt x a') := by
  obtain ⟨a', d', l', L', tr, hcore, haD, haB, hmin, hchar, hhb⟩ :=
    fresh_pass_core D only_alarming s hdev hne hbound
  refine ⟨a', ⟨a', d', l'⟩, L', tr, ?_, rfl, ⟨haD, haB, hchar, hhb⟩, hmin⟩
  simp [device_search, hcore, check_crc8, hcrc a' haD]

/-- A resumed `device_search` call over the fixture finds the
transmission-successor, with the full state invariant. -/
theorem resumed_pass (D : List Nat) (st : SearchState) (crcOk : List Nat → Bool)
    (only_alarming : Bool) (s : BusState) (hdev : s.devices = D)
    (hbound : ∀ x ∈ D, x < 2 ^ 64) (hinv : Inv D st) (hd0 : st.discrepancies ≠ 0)
    (hcrc : ∀ x ∈ D, crcOk (u64_to_le_bytes x) = true) :
    ∃ a' st' L' tr,
      device_search searchBus crcOk (some st) only_alarming s =
        (Except.ok (some (a', st')), ⟨D, L', 0, 64, false⟩, tr) ∧
      st'.address = a' ∧ Inv D st' ∧ transLt st.address a' ∧
      (∀ x ∈ D, transLt st.address x → ¬ transLt x a') := by
  obtain ⟨a', d', l', L', tr, hcore, haD, haB, hsucc, hleast, hchar, hhb⟩ :=
    resumed_pass_core D st only_alarming s hdev hbound hinv hd0
  refine ⟨a', ⟨a', d', l'⟩, L', tr, ?_, rfl, ⟨haD, haB, hchar, hhb⟩, hsucc, hleast⟩
  simp [device_search, hcore, check_crc8, hcrc a' haD]

/-- The discrepancy mask of an invariant state is zero exactly when no
device lies above the state's address in transmission order. -/
theorem maskZero_iff (D : List Nat) (st : SearchState) (hinv : Inv D st)
    (hbound : ∀ x ∈ D, x < 2 ^ 64) :
    st.discrepancies = 0 ↔ ∀ x ∈ D, ¬ transLt st.address x := by
  obtain ⟨haD, haB, hchar0, hhb0⟩ := hinv
  constructor
  · rintro hz x hxD ⟨k, hk64, h0, h1, hag⟩
    have hb : st.discrepancies.testBit k = true :=
      (hchar0 k).mpr ⟨h0, x, hxD, h1, fun j hj => (hag j hj).symm⟩
    rw [hz, Nat.zero_testBit] at hb
    cases hb
  · intro hno
    by_contra hnz
    have hBitL : st.discrepancies.testBit st.last_discrepancy_index = true := by
      rcases hhb0 with ⟨hz, -⟩ | ⟨hb, -⟩
      · exact absurd hz hnz
      · exact hb
    obtain ⟨h0, x, hxD, h1, hag⟩ := (hchar0 _).mp hBitL
    have hk64 : st.last_discrepancy_index < 64 := testBit_true_lt_64 (hbound x hxD) h1
    exact hno x hxD ⟨_, hk64, h0, h1, fun j hj => (hag j hj).symm⟩

/-- Auxiliary count lemma: two predicates that agree except at one element
present once (true for `p`, false for `q`) differ in count by one. -/
theorem countP_split (a' : Nat) (p q : Nat → Bool) :
    ∀ D : List Nat, D.Nodup → a' ∈ D → p a' = true → q a' = false →
      (∀ x ∈ D, x ≠ a' → p x = q x) →
      D.countP p = D.countP q + 1 := by
  intro D
  induction D with
  | nil => intro _ h; cases h
  | cons y ys ih =>
    intro hnd hmem hpa hqa hother
    have hnd' := List.nodup_cons.mp hnd
    rw [List.countP_cons, List.countP_cons]
    rcases List.mem_cons.mp hmem with rfl | hmem'
    · have hys : ys.countP p = ys.countP q := by
        apply List.countP_congr
        intro x hx
        have hxne : x ≠ a' := fun h => hnd'.1 (h ▸ hx)
        simp [hother x (List.mem_cons_of_mem a' hx) hxne]
      rw [hys, hpa, hqa]
      simp
    · have hyne : y ≠ a' := fun h => hnd'.1 (h ▸ hmem')
      have hy : p y = q y := hother y (List.mem_cons_self y ys) hyne
      rw [ih hnd'.2 hmem' hpa hqa
        (fun x hx hxne => hother x (List.mem_cons_of_mem y hx) hxne), hy]
      omega

/-- Running the threaded search from an invariant state enumerates, in
ascending transmission order, exactly the devices above the state's
address, then answers `None`; the last returned state (or the starting one
when nothing is above) carries an empty discrepancy mask. -/
theorem searchRun_from (crcOk : List Nat → Bool) (D : List Nat)
    (hnd : D.Nodup) (hbound : ∀ x ∈ D, x < 2 ^ 64)
    (hcrc : ∀ x ∈ D, crcOk (u64_to_le_bytes x) = true) :
    ∀ n st s, s.devices = D → Inv D st →
      D.countP (fun d => decide (transLt st.address d)) = n →
      ∀ fuel, n + 1 ≤ fuel →
      ∃ pairs : List (Nat × SearchState),
        searchRun crcOk fuel (some st) s = some (Except.ok pairs) ∧
        (∀ x, x ∈ pairs.map Prod.fst ↔ (x ∈ D ∧ transLt st.address x)) ∧
        List.Chain' transLt (st.address :: pairs.map Prod.fst) ∧
        (pairs.getLastD (0, st)).2.discrepancies = 0 := by
  intro n
  induction n with
  | zero =>
    intro st s hdev hinv hcount fuel hfuel
    have hno : ∀ x ∈ D, ¬ transLt st.address x := by
      intro x hx
      have hx0 := List.countP_eq_zero.mp hcount x hx
      simpa using hx0
    have hz : st.discrepancies = 0 := (maskZero_iff D st hinv hbound).mpr hno
    obtain ⟨f, rfl⟩ : ∃ f, fuel = f + 1 := ⟨fuel - 1, by omega⟩
    refine ⟨[], ?_, ?_, ?_, hz⟩
    · simp [searchRun, device_search, device_search_core, hz]
    · intro x
      simp only [List.map_nil, List.not_mem_nil, false_iff]
      rintro ⟨hx1, hx2⟩
      exact hno x hx1 hx2
    · exact List.chain'_singleton _
  | succ m ih =>
    intro st s hdev hinv hcount fuel hfuel
    have hd0 : st.discrepancies ≠ 0 := by
      intro hz
      have hno := (maskZero_iff D st hinv hbound).mp hz
      have hc0 : D.countP (fun d => decide (transLt st.address d)) = 0 :=
        List.countP_eq_zero.mpr (fun x hx => by simpa using hno x hx)
      omega
    obtain ⟨a', st', L', tr, hds, hsta, hinv', hsucc, hleast⟩ :=
      resumed_pass D st crcOk false s hdev hbound hinv hd0 hcrc
    have haD' : a' ∈ D := hsta ▸ hinv'.1
    have haB' : a' < 2 ^ 64 := hsta ▸ hinv'.2.1
    obtain ⟨f, rfl⟩ : ∃ f, fuel = f + 1 := ⟨fuel - 1, by omega⟩
    have hcount' : D.countP (fun d => decide (transLt st'.address d)) = m := by
      have hstep := countP_split a' (fun d => decide (transLt st.address d))
        (fun d => decide (transLt st'.address d)) D hnd haD'
        (decide_eq_true hsucc)
        (by rw [hsta]; exact decide_eq_false (transLt_irrefl a'))
        (by
          intro x hxD hxne
          rw [hsta]
          apply decide_eq_decide.mpr
          constructor
          · intro hab
            rcases transLt_total (hbound x hxD) haB' hxne with h | h
            · exact absurd h (hleast x hxD hab)
            · exact h
          · intro hab
            exact transLt_trans hsucc hab)
      omega
    obtain ⟨pairs', hrun', hmem', hchain', hlast'⟩ :=
      ih st' ⟨D, L', 0, 64, false⟩ rfl hinv' hcount' f (by omega)
    rw [hsta] at hmem' hchain'
    refine ⟨(a', st') :: pairs', ?_, ?_, ?_, ?_⟩
    · simp [searchRun, hds, hrun']
    · intro x
      simp only [List.map_cons, List.mem_cons]
      constructor
      · rintro (rfl | hx)
        · exact ⟨haD', hsucc⟩
        · obtain ⟨hxD, hxab⟩ := (hmem' x).mp hx
          exact ⟨hxD, transLt_trans hsucc hxab⟩
      · rintro ⟨hxD, hxab⟩
        by_cases hxa : x = a'
        · exact Or.inl hxa
        · refine Or.inr ((hmem' x).mpr ⟨hxD, ?_⟩)
          rcases transLt_total (hbound x hxD) haB' hxa with h | h
          · exact absurd h (hleast x hxD hxab)
          · exact h
    · exact List.chain'_cons.mpr ⟨hsucc, hchain'⟩
    · rw [List.getLastD_cons]
      rcases pairs' with - | ⟨q, qs⟩
      · simpa using hlast'
      · rw [List.getLastD_cons]
        rw [List.getLastD_cons] at hlast'
        exact hlast'

/-! ## Claim C2: full enumeration (amended to transmission order) -/

/-- C2 (amended): over a fixture bus holding a fixed set of distinct valid
device addresses (64-bit values accepted by the checksum validator),
repeatedly calling `device_search` while threading each returned
`SearchState` into the next call yields each of the addresses exactly once,
in strictly ascending transmission order — lexicographic on the bit stream
least-significant bit first, the order in which ROM bits are exchanged on
the wire — and then returns `None`; the final address-bearing call returns
a state whose `discrepancies` field is 0.  (The original claim's "ascending
numeric order" fails on the code; see the counterexample.) -/
theorem c2_enumeration_transmission_order (D : List Nat) (crcOk : List Nat → Bool)
    (s : BusState) (hnd : D.Nodup) (hne : D ≠ []) (hbound : ∀ x ∈ D, x < 2 ^ 64)
    (hcrc : ∀ x ∈ D, crcOk (u64_to_le_bytes x) = true) (hdev : s.devices = D) :
    ∃ pairs : List (Nat × SearchState),
      searchRun crcOk (D.length + 1) none s = some (Except.ok pairs) ∧
      List.Perm (pairs.map Prod.fst) D ∧
      List.Chain' transLt (pairs.map Prod.fst) ∧
      pairs ≠ [] ∧
      (pairs.getLastD (0, ⟨0, 0, 0⟩)).2.discrepancies = 0 := by
  obtain ⟨a0, st0, L0, tr0, hds0, hsta0, hinv0, hmin0⟩ :=
    fresh_pass D crcOk false s hdev hne hbound hcrc
  have ha0D : a0 ∈ D := hsta0 ▸ hinv0.1
  have ha0B : a0 < 2 ^ 64 := hsta0 ▸ hinv0.2.1
  have hlen1 : 1 ≤ D.length := by
    cases D with
    | nil => exact absurd rfl hne
    | cons y ys => simp
  have hcount0 : D.countP (fun d => decide (transLt st0.address d)) = D.length - 1 := by
    have hstep := countP_split a0 (fun _ => true)
      (fun d => decide (transLt st0.address d)) D hnd ha0D rfl
      (by rw [hsta0]; exact decide_eq_false (transLt_irrefl a0))
      (by
        intro x hxD hxne
        rw [hsta0]
        symm
        apply decide_eq_true
        rcases transLt_total (hbound x hxD) ha0B hxne with h | h
        · exact absurd h (hmin0 x hxD)
        · exact h)
    have htrue : D.countP (fun _ => true) = D.length := by
      simp
    omega
  obtain ⟨pairs', hrun', hmem', hchain', hlast'⟩ :=
    searchRun_from crcOk D hnd hbound hcrc (D.length - 1) st0
      ⟨D, L0, 0, 64, false⟩ rfl hinv0 hcount0 D.length (by omega)
  rw [hsta0] at hmem' hchain'
  have hmapeq : ((a0, st0) :: pairs').map Prod.fst = a0 :: pairs'.map Prod.fst := rfl
  have hndres : (((a0, st0) :: pairs').map Prod.fst).Nodup := by
    rw [hmapeq]
    have hpw : List.Pairwise transLt (a0 :: pairs'.map Prod.fst) :=
      List.chain'_iff_pairwise.mp hchain'
    have himp : ∀ {a b : Nat}, transLt a b → a ≠ b := by
      intro a b hab heq
      exact transLt_irrefl b (heq ▸ hab)
    exact List.Pairwise.imp himp hpw
  refine ⟨(a0, st0) :: pairs', ?_, ?_, ?_, by simp, ?_⟩
  · simp [searchRun, hds0, hrun']
  · refine (List.perm_ext_iff_of_nodup hndres hnd).mpr fun x => ?_
    rw [hmapeq, List.mem_cons]
    constructor
    · rintro (rfl | hx)
      · exact ha0D
      · exact ((hmem' x).mp hx).1
    · intro hxD
      by_cases hxa : x = a0
      · exact Or.inl hxa
      · refine Or.inr ((hmem' x).mpr ⟨hxD, ?_⟩)
        rcases transLt_total (hbound x hxD) ha0B hxa with h | h
        · exact absurd h (hmin0 x hxD)
        · exact h
  · rw [hmapeq]
    exact hchain'
  · rw [List.getLastD_cons]
    rcases pairs' with - | ⟨q, qs⟩
    · simpa using hlast'
    · rw [List.getLastD_cons]
      rw [List.getLastD_cons] at hlast'
      exact hlast'

/-- C2 counterexample: on the fixture holding the two distinct valid
addresses 1 and 2 (every 8-byte sequence accepted by the validator), the
threaded search returns address 2 first (with state mask 1) and address 1
second — not in strictly ascending numeric order of the 64-bit ROM codes,
since 2 is not below 1.  The walk chooses bits from the least-significant
end, so 2 (low bit 0) precedes 1 (low bit 1). -/
theorem c2_counterexample :
    searchRun (fun _ => true) 3 none ⟨[1, 2], [1, 2], 0, 0, false⟩ =
      some (Except.ok [(2, ⟨2, 1, 0⟩), (1, ⟨1, 0, 0⟩)]) ∧ ¬(2 < 1) :=
  ⟨rfl, by omega⟩

theorem c2_witness :
    ([1, 2] : List Nat).Nodup ∧ ([1, 2] : List Nat) ≠ [] ∧
      (∀ x ∈ ([1, 2] : List Nat), x < 2 ^ 64) ∧
      (∃ pairs : List (Nat × SearchState),
        searchRun (fun _ => true) (([1, 2] : List Nat).length + 1) none
          ⟨[1, 2], [1, 2], 0, 0, false⟩ = some (Except.ok pairs) ∧
        List.Perm (pairs.map Prod.fst) [1, 2] ∧
        List.Chain' transLt (pairs.map Prod.fst) ∧
        pairs ≠ [] ∧
        (pairs.getLastD (0, ⟨0, 0, 0⟩)).2.discrepancies = 0) :=
  ⟨by decide, by decide, by decide,
    c2_enumeration_transmission_order [1, 2] (fun _ => true)
      ⟨[1, 2], [1, 2], 0, 0, false⟩ (by decide) (by decide) (by decide)
      (fun _ _ => rfl) rfl⟩

end OneWire
